import Mathlib

/-!
RT_Flow — verification of the engine core

Shallow embedding of the RT_Flow document revision engine (rt-core,
rt-compare, rt-merge, rt-workflow crates) together with proofs about the
embedded operations.  Each Rust function is translated into a computable
Lean definition; randomly generated UUIDs and wall-clock timestamps are
threaded as explicit parameters or omitted when they do not influence the
behaviour under study.
-/

/-! ## rt-core: error type (error.rs)

`Database`, `Serialization` and `Io` wrap foreign error values; here they
carry the rendered message string. -/

inductive RtError where
  | database (msg : String)
  | serialization (msg : String)
  | notFound (msg : String)
  | invalidInput (msg : String)
  | hashMismatch (expected actual : String)
  | schema (msg : String)
  | io (msg : String)
  | internal (msg : String)
deriving DecidableEq, Repr

/-- `true` exactly on the `invalidInput` variant. -/
def RtError.isInvalidInput : RtError → Bool
  | .invalidInput _ => true
  | _ => false

/-- `true` when an `Except RtError` result is an `InvalidInput` error. -/
def errIsInvalidInput {α : Type} : Except RtError α → Bool
  | .error e => e.isInvalidInput
  | .ok _ => false

/-! ## rt-workflow: states and events (state.rs, event.rs) -/

inductive WorkflowState where
  | draft
  | compareRunning
  | flowCreated
  | inReview
  | reviewClosed
  | compilingEdits
  | readyForFinalization
  | completed
  | aborted
deriving DecidableEq, Repr, Fintype

def WorkflowState.as_str : WorkflowState → String
  | .draft => "DRAFT"
  | .compareRunning => "COMPARE_RUNNING"
  | .flowCreated => "FLOW_CREATED"
  | .inReview => "IN_REVIEW"
  | .reviewClosed => "REVIEW_CLOSED"
  | .compilingEdits => "COMPILING_EDITS"
  | .readyForFinalization => "READY_FOR_FINALIZATION"
  | .completed => "COMPLETED"
  | .aborted => "ABORTED"

/-- `WorkflowState::from_str` (state.rs): unknown strings are rejected. -/
def WorkflowState.fromStr (s : String) : Except RtError WorkflowState :=
  if s = "DRAFT" then .ok .draft
  else if s = "COMPARE_RUNNING" then .ok .compareRunning
  else if s = "FLOW_CREATED" then .ok .flowCreated
  else if s = "IN_REVIEW" then .ok .inReview
  else if s = "REVIEW_CLOSED" then .ok .reviewClosed
  else if s = "COMPILING_EDITS" then .ok .compilingEdits
  else if s = "READY_FOR_FINALIZATION" then .ok .readyForFinalization
  else if s = "COMPLETED" then .ok .completed
  else if s = "ABORTED" then .ok .aborted
  else .error (.invalidInput ("unknown workflow state: " ++ s))

inductive EventType where
  | workflowCreated
  | compareStarted
  | compareCompleted
  | flowCreated
  | reviewStarted
  | reviewerAssigned
  | deltaSubmitted
  | reviewClosed
  | editCompilationStarted
  | editCompilationCompleted
  | finalizationReady
  | workflowCompleted
  | workflowAborted
deriving DecidableEq, Repr, Fintype

def EventType.as_str : EventType → String
  | .workflowCreated => "workflow_created"
  | .compareStarted => "compare_started"
  | .compareCompleted => "compare_completed"
  | .flowCreated => "flow_created"
  | .reviewStarted => "review_started"
  | .reviewerAssigned => "reviewer_assigned"
  | .deltaSubmitted => "delta_submitted"
  | .reviewClosed => "review_closed"
  | .editCompilationStarted => "edit_compilation_started"
  | .editCompilationCompleted => "edit_compilation_completed"
  | .finalizationReady => "finalization_ready"
  | .workflowCompleted => "workflow_completed"
  | .workflowAborted => "workflow_aborted"

/-- `EventType::from_str` (event.rs): unknown strings are rejected. -/
def EventType.fromStr (s : String) : Except RtError EventType :=
  if s = "workflow_created" then .ok .workflowCreated
  else if s = "compare_started" then .ok .compareStarted
  else if s = "compare_completed" then .ok .compareCompleted
  else if s = "flow_created" then .ok .flowCreated
  else if s = "review_started" then .ok .reviewStarted
  else if s = "reviewer_assigned" then .ok .reviewerAssigned
  else if s = "delta_submitted" then .ok .deltaSubmitted
  else if s = "review_closed" then .ok .reviewClosed
  else if s = "edit_compilation_started" then .ok .editCompilationStarted
  else if s = "edit_compilation_completed" then .ok .editCompilationCompleted
  else if s = "finalization_ready" then .ok .finalizationReady
  else if s = "workflow_completed" then .ok .workflowCompleted
  else if s = "workflow_aborted" then .ok .workflowAborted
  else .error (.invalidInput ("unknown event type: " ++ s))

/-! ## rt-workflow: transition validator (validator.rs) -/

/-- `validate_transition` (validator.rs): returns the successor state for a
legal `(state, event)` pair and an `InvalidInput` error otherwise. -/
def validate_transition (current : WorkflowState) (event : EventType) :
    Except RtError WorkflowState :=
  match current, event with
  | .draft, .workflowCreated => .ok .draft
  | .draft, .compareStarted => .ok .compareRunning
  | .draft, .workflowAborted => .ok .aborted
  | .compareRunning, .compareCompleted => .ok .flowCreated
  | .flowCreated, .reviewStarted => .ok .inReview
  | .inReview, .reviewerAssigned => .ok .inReview
  | .inReview, .deltaSubmitted => .ok .inReview
  | .inReview, .reviewClosed => .ok .reviewClosed
  | .inReview, .workflowAborted => .ok .aborted
  | .reviewClosed, .editCompilationStarted => .ok .compilingEdits
  | .reviewClosed, .workflowAborted => .ok .aborted
  | .compilingEdits, .editCompilationCompleted => .ok .readyForFinalization
  | .readyForFinalization, .workflowCompleted => .ok .completed
  | .completed, e =>
      .error (.invalidInput
        ("workflow is already COMPLETED; event " ++ e.as_str ++ " is not permitted"))
  | .aborted, e =>
      .error (.invalidInput
        ("workflow is already ABORTED; event " ++ e.as_str ++ " is not permitted"))
  | s, e =>
      .error (.invalidInput
        ("illegal transition: event " ++ e.as_str ++ " is not permitted in state "
          ++ s.as_str))

/-- The transition table exactly as the specification states it (§4.F):
`some next` for the thirteen legal `(state, event)` pairs, `none` for every
other pair. -/
def specTransitionTable (s : WorkflowState) (e : EventType) : Option WorkflowState :=
  match s, e with
  | .draft, .workflowCreated => some .draft
  | .draft, .compareStarted => some .compareRunning
  | .draft, .workflowAborted => some .aborted
  | .compareRunning, .compareCompleted => some .flowCreated
  | .flowCreated, .reviewStarted => some .inReview
  | .inReview, .reviewerAssigned => some .inReview
  | .inReview, .deltaSubmitted => some .inReview
  | .inReview, .reviewClosed => some .reviewClosed
  | .inReview, .workflowAborted => some .aborted
  | .reviewClosed, .editCompilationStarted => some .compilingEdits
  | .reviewClosed, .workflowAborted => some .aborted
  | .compilingEdits, .editCompilationCompleted => some .readyForFinalization
  | .readyForFinalization, .workflowCompleted => some .completed
  | _, _ => none

/-! ## rt-merge: conflict resolution state machine (resolution.rs) -/

inductive ConflictResolution where
  | pending
  | acceptedBase
  | acceptedIncoming
  | manual
deriving DecidableEq, Repr, Fintype

def resolution_name : ConflictResolution → String
  | .pending => "pending"
  | .acceptedBase => "accepted_base"
  | .acceptedIncoming => "accepted_incoming"
  | .manual => "manual"

/-- `validate_resolution` (resolution.rs): only `pending → accepted_base`,
`pending → accepted_incoming` and `pending → manual` are legal. -/
def validate_resolution (current target : ConflictResolution) :
    Except RtError Unit :=
  if current = target then
    .error (.invalidInput
      ("conflict is already in the " ++ resolution_name current
        ++ " state; target resolution must differ"))
  else
    match current, target with
    | .pending, .acceptedBase => .ok ()
    | .pending, .acceptedIncoming => .ok ()
    | .pending, .manual => .ok ()
    | c, .pending =>
        .error (.invalidInput
          ("cannot revert conflict from " ++ resolution_name c
            ++ " back to pending; once resolved a conflict cannot be unresolved"))
    | c, t =>
        .error (.invalidInput
          ("cannot transition conflict from " ++ resolution_name c ++ " to "
            ++ resolution_name t ++ "; only pending conflicts may be resolved"))

/-! ## rt-core: string decoders with silent fallback (block.rs)

The `From<&str>` implementations in block.rs map unrecognised strings to a
default variant instead of failing; they are used when loading rows in
db.rs. -/

inductive BlockType where
  | section
  | clause
  | subclause
  | paragraph
  | table
  | tableRow
  | tableCell
deriving DecidableEq, Repr

def BlockType.as_str : BlockType → String
  | .section => "section"
  | .clause => "clause"
  | .subclause => "subclause"
  | .paragraph => "paragraph"
  | .table => "table"
  | .tableRow => "table_row"
  | .tableCell => "table_cell"

/-- `impl From<&str> for BlockType` (block.rs): unknown strings fall back to
`Paragraph`. -/
def BlockType.fromStr (s : String) : BlockType :=
  if s = "section" then .section
  else if s = "clause" then .clause
  else if s = "subclause" then .subclause
  else if s = "paragraph" then .paragraph
  else if s = "table" then .table
  else if s = "table_row" then .tableRow
  else if s = "table_cell" then .tableCell
  else .paragraph

inductive TokenKind where
  | word
  | number
  | punctuation
  | whitespace
  | definedTerm
  | partyRef
  | dateRef
deriving DecidableEq, Repr

/-- `impl From<&str> for TokenKind` (block.rs): unknown strings fall back to
`Word`. -/
def TokenKind.fromStr (s : String) : TokenKind :=
  if s = "number" then .number
  else if s = "punctuation" then .punctuation
  else if s = "whitespace" then .whitespace
  else if s = "defined_term" then .definedTerm
  else if s = "party_ref" then .partyRef
  else if s = "date_ref" then .dateRef
  else .word

inductive DocumentType where
  | original
  | redline
  | merged
  | snapshot
deriving DecidableEq, Repr

/-- `impl From<&str> for DocumentType` (block.rs): unknown strings fall back
to `Original`. -/
def DocumentType.fromStr (s : String) : DocumentType :=
  if s = "redline" then .redline
  else if s = "merged" then .merged
  else if s = "snapshot" then .snapshot
  else .original

/-! ## rt-workflow: engine over a persisted store (commands.rs, projector.rs)

The SQLite store is modelled as in-memory lists of rows.  UUIDs are
modelled as naturals, timestamps as abstract ticks supplied by the caller
(`Utc::now()` is an input of the model), and the opaque JSON payload as a
string.  Enum-typed columns are stored as their string encodings exactly as
the Rust code writes them. -/

structure WorkflowRow where
  id : Nat
  document_id : Nat
  state : String
  initiator_id : String
  created_at : Nat
  updated_at : Nat
deriving DecidableEq, Repr

structure EventRow where
  id : Nat
  workflow_id : Nat
  event_type : String
  actor : String
  payload : String
  created_at : Nat
  seq : Int
deriving DecidableEq, Repr

structure Db where
  workflows : List WorkflowRow
  events : List EventRow
deriving DecidableEq, Repr

structure Workflow where
  id : Nat
  document_id : Nat
  state : WorkflowState
  initiator_id : String
  created_at : Nat
  updated_at : Nat
deriving DecidableEq, Repr

structure WorkflowEvent where
  id : Nat
  workflow_id : Nat
  event_type : EventType
  actor : String
  payload : String
  created_at : Nat
  seq : Int
deriving DecidableEq, Repr

/-- Stable insertion step: place `x` after every element whose `seq` is
`≤ x.seq`, mirroring the stable `sort_by_key` of the Rust code. -/
def insertEventBySeq : WorkflowEvent → List WorkflowEvent → List WorkflowEvent
  | x, [] => [x]
  | x, y :: ys => if y.seq ≤ x.seq then y :: insertEventBySeq x ys else x :: y :: ys

/-- Stable sort of events by ascending `seq`. -/
def sortEventsBySeq (l : List WorkflowEvent) : List WorkflowEvent :=
  l.foldl (fun acc x => insertEventBySeq x acc) []

/-- `project_state` (projector.rs): replay `events` (sorted by `seq`) onto
`workflow`; fails when any event is an illegal transition. -/
def project_state (workflow : Workflow) (events : List WorkflowEvent) :
    Except RtError Workflow :=
  (sortEventsBySeq events).foldlM
    (fun current event => do
      let new_state ← validate_transition current.state event.event_type
      pure { current with state := new_state, updated_at := event.created_at })
    workflow

/-- `WorkflowEngine::get_events` (commands.rs): all rows for `workflow_id`
ordered by `seq` ascending, with `event_type` decoded through
`EventType::from_str`. -/
def get_events (db : Db) (workflow_id : Nat) :
    Except RtError (List WorkflowEvent) :=
  ((db.events.filter (fun (r : EventRow) => r.workflow_id = workflow_id)).mapM
    (fun (r : EventRow) => do
      let event_type ← EventType.fromStr r.event_type
      pure { id := r.id, workflow_id := r.workflow_id, event_type := event_type,
             actor := r.actor, payload := r.payload, created_at := r.created_at,
             seq := r.seq : WorkflowEvent })).map sortEventsBySeq

/-- `WorkflowEngine::get_workflow` (commands.rs): load the row, rebuild a
DRAFT-state base snapshot, and replay all events through the projector. -/
def get_workflow (db : Db) (workflow_id : Nat) : Except RtError Workflow :=
  match db.workflows.find? (fun r => r.id = workflow_id) with
  | none => .error (.notFound ("workflow not found: " ++ toString workflow_id))
  | some row => do
      let state ← WorkflowState.fromStr row.state
      let snapshot : Workflow :=
        { id := row.id, document_id := row.document_id, state := state,
          initiator_id := row.initiator_id, created_at := row.created_at,
          updated_at := row.updated_at }
      let base := { snapshot with
        state := WorkflowState.draft,
        updated_at := snapshot.created_at }
      let events ← get_events db workflow_id
      project_state base events

/-- `WorkflowEngine::next_seq` (commands.rs): `MAX(seq)` over the
workflow's events (`0` when there are none) plus one. -/
def next_seq (db : Db) (workflow_id : Nat) : Int :=
  (((db.events.filter (fun r => r.workflow_id = workflow_id)).map
    (fun r => r.seq)).max?.getD 0) + 1

/-- `WorkflowEngine::submit_event` (commands.rs): load the current projected
state, validate the transition (failing fast before any write), then append
the event row and update the workflow row.  The returned database reflects
the writes performed; on a validation error nothing has been written. -/
def submit_event (db : Db) (workflow_id : Nat) (event_type : EventType)
    (actor : String) (payload : String) (event_id : Nat) (now : Nat) :
    Except RtError Workflow × Db :=
  match get_workflow db workflow_id with
  | .error e => (.error e, db)
  | .ok current =>
    match validate_transition current.state event_type with
    | .error e => (.error e, db)
    | .ok new_state =>
      let seq := next_seq db workflow_id
      let row : EventRow :=
        { id := event_id, workflow_id := workflow_id,
          event_type := event_type.as_str, actor := actor,
          payload := payload, created_at := now, seq := seq }
      let db1 : Db := { db with events := db.events ++ [row] }
      let updRow := fun (r : WorkflowRow) =>
        if r.id = workflow_id then
          { r with state := new_state.as_str, updated_at := now }
        else r
      let db2 : Db := { db1 with workflows := db1.workflows.map updRow }
      (get_workflow db2 workflow_id, db2)

/-- A one-workflow database used to instantiate hypotheses at a concrete
input: workflow `1` in DRAFT with its creation event at `seq = 1`. -/
def sampleDb : Db :=
  { workflows := [{ id := 1, document_id := 7, state := "DRAFT",
                    initiator_id := "alice", created_at := 0, updated_at := 0 }],
    events := [{ id := 10, workflow_id := 1, event_type := "workflow_created",
                 actor := "alice", payload := "", created_at := 0, seq := 1 }] }

/-! ## rt-merge: deltas and conflict detection (layer.rs, conflict.rs)

JSON payloads are modelled by a minimal value type; `payload_text` mirrors
`payload.get("text").and_then(as_str)`.  The randomly generated `id` and
the `created_at` timestamp of `BlockDelta` / `MergeConflict` do not
influence any behaviour below and are omitted from the model. -/

inductive JsonVal where
  | null
  | str (s : String)
  | num (n : Int)
  | obj (fields : List (String × JsonVal))

def JsonVal.get : JsonVal → String → Option JsonVal
  | .obj fields, key => (fields.find? (fun kv => kv.1 = key)).map (fun kv => kv.2)
  | _, _ => none

def JsonVal.asStr : JsonVal → Option String
  | .str s => some s
  | _ => none

/-- `payload_text` (conflict.rs): the string under key `"text"`, if any. -/
def payload_text (payload : JsonVal) : Option String :=
  (payload.get "text").bind JsonVal.asStr

inductive DeltaType where
  | insert
  | delete
  | modify
deriving DecidableEq, Repr

/-- `BlockDelta` (layer.rs) restricted to the behaviour-relevant fields. -/
structure BlockDelta where
  review_layer_id : Nat
  reviewer_id : String
  block_id : Nat
  delta_type : DeltaType
  token_start : Nat
  token_end : Nat
  delta_payload : JsonVal

inductive ConflictType where
  | contentOverlap
  | moveCollision
  | deleteModify
deriving DecidableEq, Repr

structure MergeConflict where
  block_id : Nat
  conflict_type : ConflictType
  base_content : Option String
  incoming_content : Option String
  resolution : ConflictResolution
deriving DecidableEq, Repr

/-- `MergeConflict::new` (conflict.rs): always starts in `Pending`. -/
def MergeConflict.new (block_id : Nat) (conflict_type : ConflictType)
    (base_content incoming_content : Option String) : MergeConflict :=
  { block_id := block_id, conflict_type := conflict_type,
    base_content := base_content, incoming_content := incoming_content,
    resolution := ConflictResolution.pending }

/-- `ranges_overlap` (conflict.rs): two inclusive token ranges share an
index iff neither is entirely before the other. -/
def ranges_overlap (a_start a_end b_start b_end : Nat) : Bool :=
  a_start ≤ b_end && b_start ≤ a_end

/-- One iteration of the nested loop body of `detect_conflicts`
(conflict.rs): at most one conflict per `(base, incoming)` delta pair. -/
def conflict_for_pair (base_delta inc_delta : BlockDelta) : Option MergeConflict :=
  if base_delta.block_id ≠ inc_delta.block_id then
    none
  else if base_delta.delta_type = DeltaType.delete
      ∧ inc_delta.delta_type ≠ DeltaType.delete then
    some (MergeConflict.new base_delta.block_id ConflictType.deleteModify
      none (payload_text inc_delta.delta_payload))
  else if inc_delta.delta_type = DeltaType.delete
      ∧ base_delta.delta_type ≠ DeltaType.delete then
    some (MergeConflict.new base_delta.block_id ConflictType.deleteModify
      (payload_text base_delta.delta_payload) none)
  else if base_delta.delta_type ≠ DeltaType.delete
      ∧ inc_delta.delta_type ≠ DeltaType.delete
      ∧ ranges_overlap base_delta.token_start base_delta.token_end
          inc_delta.token_start inc_delta.token_end then
    some (MergeConflict.new base_delta.block_id ConflictType.contentOverlap
      (payload_text base_delta.delta_payload)
      (payload_text inc_delta.delta_payload))
  else
    none

/-- `detect_conflicts` (conflict.rs): nested loop over base then incoming
deltas, emitting the conflicts of `conflict_for_pair` in order. -/
def detect_conflicts (base_deltas incoming_deltas : List BlockDelta) :
    List MergeConflict :=
  base_deltas.flatMap
    (fun base_delta => incoming_deltas.filterMap (conflict_for_pair base_delta))

/-! ## rt-compare: tokenizer (tokenize.rs)

The character classes model the Rust `char` predicates on the Basic Latin,
Latin-1 Supplement and (for `Ÿ`) Latin Extended-A ranges — the character
universe the tokenizer's normalisation table is written for.  Characters
are compared through their code points (`Char.toNat`). -/

/-- Rust `char::is_whitespace`: the Unicode `White_Space` code points. -/
def rustIsWhitespace (c : Char) : Bool :=
  (9 ≤ c.toNat && c.toNat ≤ 13) || c.toNat = 32 || c.toNat = 0x85
    || c.toNat = 0xA0 || c.toNat = 0x1680
    || (0x2000 ≤ c.toNat && c.toNat ≤ 0x200A)
    || c.toNat = 0x2028 || c.toNat = 0x2029 || c.toNat = 0x202F
    || c.toNat = 0x205F || c.toNat = 0x3000

/-- Rust `char::is_uppercase`, restricted to the modelled Latin ranges. -/
def rustIsUppercase (c : Char) : Bool :=
  (65 ≤ c.toNat && c.toNat ≤ 90)
    || (0xC0 ≤ c.toNat && c.toNat ≤ 0xDE && c.toNat ≠ 0xD7)
    || c.toNat = 0x178

/-- Rust `char::is_lowercase`, restricted to the modelled Latin ranges. -/
def rustIsLowercase (c : Char) : Bool :=
  (97 ≤ c.toNat && c.toNat ≤ 122)
    || (0xDF ≤ c.toNat && c.toNat ≤ 0xFF && c.toNat ≠ 0xF7)

/-- Rust `char::is_alphabetic`, restricted to the modelled Latin ranges. -/
def rustIsAlphabetic (c : Char) : Bool :=
  rustIsUppercase c || rustIsLowercase c

/-- Rust `char::is_ascii_digit`. -/
def rustIsAsciiDigit (c : Char) : Bool :=
  48 ≤ c.toNat && c.toNat ≤ 57

/-- Rust `char::to_lowercase` on the modelled Latin ranges. -/
def rustToLowerChar (c : Char) : Char :=
  if 65 ≤ c.toNat && c.toNat ≤ 90 then Char.ofNat (c.toNat + 32)
  else if 0xC0 ≤ c.toNat && c.toNat ≤ 0xDE && c.toNat ≠ 0xD7 then
    Char.ofNat (c.toNat + 32)
  else if c.toNat = 0x178 then Char.ofNat 0xFF
  else c

/-- Rust `str::to_lowercase` of the model. -/
def rustToLower (s : String) : String :=
  String.mk (s.toList.map rustToLowerChar)

/-- Rust `str::ends_with`. -/
def strEndsWith (s suf : String) : Bool :=
  suf.toList.isSuffixOf s.toList

/-- `is_punctuation` (tokenize.rs): the fixed single-character list.  The
quotation marks, backtick and curly brackets are matched by code point. -/
def is_punctuation (ch : Char) : Bool :=
  ch = '.' || ch = ',' || ch = ';' || ch = ':' || ch = '!' || ch = '?'
    || ch.toNat = 0x22 || ch.toNat = 0x27
    || ch = '(' || ch = ')' || ch = '[' || ch = ']'
    || ch.toNat = 0x7B || ch.toNat = 0x7D
    || ch = '-' || ch.toNat = 0x2013 || ch.toNat = 0x2014
    || ch = '/' || ch = '\\' || ch = '@' || ch = '#' || ch = '%'
    || ch = '^' || ch = '&' || ch = '*' || ch = '+' || ch = '='
    || ch = '<' || ch = '>' || ch = '|' || ch = '~' || ch.toNat = 0x60
    || ch.toNat = 0x2018 || ch.toNat = 0x2019
    || ch.toNat = 0x201C || ch.toNat = 0x201D

/-- `strip_diacritic` (tokenize.rs): fixed mapping table for common Latin
diacritics; everything else passes through. -/
def strip_diacritic (ch : Char) : Char :=
  if ch ∈ ['à', 'á', 'â', 'ã', 'ä', 'å', 'À', 'Á', 'Â', 'Ã', 'Ä', 'Å'] then 'a'
  else if ch ∈ ['è', 'é', 'ê', 'ë', 'È', 'É', 'Ê', 'Ë'] then 'e'
  else if ch ∈ ['ì', 'í', 'î', 'ï', 'Ì', 'Í', 'Î', 'Ï'] then 'i'
  else if ch ∈ ['ò', 'ó', 'ô', 'õ', 'ö', 'ø', 'Ò', 'Ó', 'Ô', 'Õ', 'Ö', 'Ø'] then 'o'
  else if ch ∈ ['ù', 'ú', 'û', 'ü', 'Ù', 'Ú', 'Û', 'Ü'] then 'u'
  else if ch ∈ ['ý', 'ÿ', 'Ý', 'Ÿ'] then 'y'
  else if ch ∈ ['ñ', 'Ñ'] then 'n'
  else if ch ∈ ['ç', 'Ç'] then 'c'
  else if ch = 'ß' then 's'
  else ch

/-- `normalize_token` (tokenize.rs): strip diacritics, then lowercase. -/
def normalize_token (token : String) : String :=
  rustToLower (String.mk (token.toList.map strip_diacritic))

/-- `Token` (block.rs). -/
structure Token where
  text : String
  kind : TokenKind
  normalized : String
  offset : Nat
deriving DecidableEq, Repr

/-- The scanning loop of `is_numeric` (tokenize.rs): walks the characters
after the optional sign, tracking `has_digit` / `has_alpha_suffix`, and
bails out (`none`) on any character that is not a digit, `.`, `,` or a
letter. -/
def isNumericLoop : List Char → Bool → Bool → Option (Bool × Bool)
  | [], has_digit, has_alpha => some (has_digit, has_alpha)
  | c :: cs, has_digit, has_alpha =>
    if rustIsAsciiDigit c then isNumericLoop cs true has_alpha
    else if c = '.' ∨ c = ',' then isNumericLoop cs has_digit has_alpha
    else if rustIsAlphabetic c then isNumericLoop cs has_digit true
    else none

/-- `is_ordinal_suffix` (tokenize.rs): the lowercased word merely has to
END with one of `st`, `nd`, `rd`, `th`. -/
def is_ordinal_suffix (word : String) : Bool :=
  let lower := rustToLower word
  strEndsWith lower "st" || strEndsWith lower "nd"
    || strEndsWith lower "rd" || strEndsWith lower "th"

/-- `is_numeric` (tokenize.rs). -/
def is_numeric (word : String) : Bool :=
  match word.toList with
  | [] => false
  | c :: cs =>
    let body := if c = '+' ∨ c = '-' then cs else c :: cs
    match isNumericLoop body false false with
    | none => false
    | some (has_digit, has_alpha_suffix) =>
        has_digit && (!has_alpha_suffix || is_ordinal_suffix word)

/-- `is_likely_defined_term` (tokenize.rs). -/
def is_likely_defined_term (word : String) : Bool :=
  match word.toList with
  | [] => false
  | first :: rest =>
    if !rustIsUppercase first then false
    else if rest.isEmpty then false
    else
      let all_lower_rest := rest.all (fun c => !rustIsAlphabetic c || rustIsLowercase c)
      let all_upper := rest.all (fun c => !rustIsAlphabetic c || rustIsUppercase c)
      all_lower_rest || all_upper

/-- `classify_word` (tokenize.rs). -/
def classify_word (word : String) : TokenKind :=
  if is_numeric word then TokenKind.number
  else if is_likely_defined_term word then TokenKind.definedTerm
  else TokenKind.word

/-- The scanning loop of `tokenize` (tokenize.rs).  `fuel` bounds the
number of iterations; every iteration consumes at least one character, so
`fuel = length of the input` makes the bound irrelevant (the Rust loop has
no bound).  The running byte offset accumulates UTF-8 sizes exactly as the
Rust code recomputes them. -/
def tokenizeGo : Nat → List Char → Nat → List Token
  | 0, _, _ => []
  | _ + 1, [], _ => []
  | fuel + 1, c :: cs, off =>
    if rustIsWhitespace c then
      tokenizeGo fuel cs (off + c.utf8Size)
    else if is_punctuation c then
      let text := String.mk [c]
      { text := text, kind := TokenKind.punctuation,
        normalized := normalize_token text, offset := off }
        :: tokenizeGo fuel cs (off + c.utf8Size)
    else
      let wordRest := cs.takeWhile (fun ch => !rustIsWhitespace ch && !is_punctuation ch)
      let rest := cs.dropWhile (fun ch => !rustIsWhitespace ch && !is_punctuation ch)
      let wordChars := c :: wordRest
      let word := String.mk wordChars
      { text := word, kind := classify_word word,
        normalized := normalize_token word, offset := off }
        :: tokenizeGo fuel rest (off + (wordChars.map Char.utf8Size).sum)

/-- `tokenize` (tokenize.rs). -/
def tokenize (text : String) : List Token :=
  tokenizeGo text.toList.length text.toList 0

/-- A character the `is_numeric` loop accepts: digit, separator or letter. -/
def numValid (c : Char) : Bool :=
  rustIsAsciiDigit c || c = '.' || c = ',' || rustIsAlphabetic c

/-- The claim's Number pattern, as the specification words it: an optional
leading sign, then digits with optional `.`/`,` separators, then an
optional alphabetic suffix that must be exactly one of `st`, `nd`, `rd`,
`th` (case-insensitive). -/
def specNumberClaim (w : String) : Bool :=
  match w.toList with
  | [] => false
  | c :: cs =>
    let body := if c = '+' ∨ c = '-' then cs else c :: cs
    let numPart := body.takeWhile (fun ch => rustIsAsciiDigit ch || ch = '.' || ch = ',')
    let sufPart := String.mk
      (body.dropWhile (fun ch => rustIsAsciiDigit ch || ch = '.' || ch = ','))
    numPart.any rustIsAsciiDigit &&
      (sufPart = "" || (rustToLower sufPart) ∈ (["st", "nd", "rd", "th"] : List String))

/-- The Number rule the code actually implements, spec-style: after the
optional sign every character is a digit, a `.`/`,` separator or a letter,
at least one digit occurs, and when any letter occurs the lowercased word
ends with `st`, `nd`, `rd` or `th`. -/
def specNumberAmended (w : String) : Bool :=
  match w.toList with
  | [] => false
  | c :: cs =>
    let body := if c = '+' ∨ c = '-' then cs else c :: cs
    body.all numValid && body.any rustIsAsciiDigit &&
      (!body.any rustIsAlphabetic ||
        (strEndsWith (rustToLower w) "st" || strEndsWith (rustToLower w) "nd"
          || strEndsWith (rustToLower w) "rd" || strEndsWith (rustToLower w) "th"))

/-! ## rt-core: the Block data model (block.rs)

`runs`, `children` and `formatting_meta` are presentation-only and are not
read by any embedded operation; they are omitted.  Similarity scores are
`f64` in Rust; every score here is a ratio of small naturals, modelled
exactly by `Rat`. -/

structure Block where
  id : Nat
  document_id : Nat
  parent_id : Option Nat
  block_type : BlockType
  level : Int
  structural_path : String
  anchor_signature : String
  clause_hash : String
  canonical_text : String
  display_text : String
  position_index : Int
  tokens : List Token
deriving DecidableEq, Repr

def defaultBlock : Block :=
  { id := 0, document_id := 0, parent_id := none, block_type := BlockType.paragraph,
    level := 0, structural_path := "", anchor_signature := "", clause_hash := "",
    canonical_text := "", display_text := "", position_index := 0, tokens := [] }

instance : Inhabited Block := ⟨defaultBlock⟩

/-! ## rt-compare: alignment engine (align.rs) -/

/-- `SIMILARITY_THRESHOLD` (align.rs). -/
def SIMILARITY_THRESHOLD : Rat := 7 / 10

/-- `MOVE_THRESHOLD` (align.rs). -/
def MOVE_THRESHOLD : Rat := 17 / 20

/-- `token_set` (align.rs): normalized non-whitespace token strings, falling
back to tokenizing the canonical text when the token list is empty. -/
def token_set (block : Block) : List String :=
  if !block.tokens.isEmpty then
    (block.tokens.filter (fun t => t.kind ≠ TokenKind.whitespace)).map
      (fun t => t.normalized)
  else
    (tokenize block.canonical_text).map (fun t => t.normalized)

/-- `block_similarity` (align.rs): multiset Jaccard over the token sets.
The Rust sum over the entries of `left_counts` is the sum of
`min(count_L t, count_R t)` over the distinct tokens of the left set. -/
def block_similarity (left right : Block) : Rat :=
  let left_tokens := token_set left
  let right_tokens := token_set right
  if left_tokens.isEmpty ∧ right_tokens.isEmpty then 1
  else if left_tokens.isEmpty ∨ right_tokens.isEmpty then 0
  else
    let intersection :=
      (left_tokens.dedup.map
        (fun t => min (left_tokens.count t) (right_tokens.count t))).sum
    let total := left_tokens.length + right_tokens.length - intersection
    if total = 0 then 1 else (intersection : Rat) / (total : Rat)

inductive BlockAlignment where
  | matched (left right : Nat) (similarity : Rat)
  | insertedRight (right : Nat)
  | deletedLeft (left : Nat)
  | moved (left right : Nat) (similarity : Rat)
deriving DecidableEq, Repr

/-- The mutable state of `align_blocks`: the two matched-index sets and the
accumulating list of `(left, right, similarity, is_move)` pairs. -/
structure AlignState where
  leftMatched : List Nat
  rightMatched : List Nat
  pairs : List (Nat × Nat × Rat × Bool)
deriving DecidableEq, Repr

/-- Record one matched pair and mark both indices. -/
def addPair (st : AlignState) (li ri : Nat) (sim : Rat) (mv : Bool) : AlignState :=
  { leftMatched := st.leftMatched ++ [li],
    rightMatched := st.rightMatched ++ [ri],
    pairs := st.pairs ++ [(li, ri, sim, mv)] }

/-- A `HashMap` collected from `(key b, i)` for the allowed right indices in
order: later inserts overwrite earlier ones, so a lookup returns the LAST
allowed index with the key. -/
def right_by_key (key : Block → String) (right : List Block)
    (allowed : Nat → Bool) (k : String) : Option Nat :=
  right.enum.foldl
    (fun acc e => if allowed e.1 && (key e.2 == k) then some e.1 else acc) none

/-- Loop body of pass 1 (align.rs): exact `structural_path` match. -/
def pass1Step (right : List Block) (st : AlignState) (e : Nat × Block) : AlignState :=
  match right_by_key (fun b => b.structural_path) right (fun _ => true)
      e.2.structural_path with
  | some ri =>
    if ri ∈ st.rightMatched then st
    else addPair st e.1 ri (block_similarity e.2 (right.getD ri defaultBlock)) false
  | none => st

/-- Pass 1 of `align_blocks` (align.rs). -/
def pass1 (left right : List Block) : AlignState :=
  left.enum.foldl (pass1Step right)
    { leftMatched := [], rightMatched := [], pairs := [] }

/-- Pass 2 of `align_blocks` (align.rs): `anchor_signature` match among the
blocks still unmatched after pass 1.  The map only contains right indices
unmatched at the START of the pass; the loop re-checks the live set. -/
def pass2Step (right : List Block) (st0 : AlignState) (st : AlignState)
    (e : Nat × Block) : AlignState :=
  if e.1 ∈ st.leftMatched then st
  else
    match right_by_key (fun b => b.anchor_signature) right
        (fun i => decide (i ∉ st0.rightMatched)) e.2.anchor_signature with
    | some ri =>
      if ri ∈ st.rightMatched then st
      else
        let rb := right.getD ri defaultBlock
        let is_move := decide (e.2.structural_path ≠ rb.structural_path)
        addPair st e.1 ri (block_similarity e.2 rb) is_move
    | none => st

def pass2 (left right : List Block) (st0 : AlignState) : AlignState :=
  left.enum.foldl (pass2Step right st0) st0

/-- Stable insertion step of the descending similarity sort: `x` goes after
every candidate whose similarity is `≥` its own, exactly the order the
stable `sort_by` with a descending comparator produces. -/
def insertCandidate (x : Nat × Nat × Rat) :
    List (Nat × Nat × Rat) → List (Nat × Nat × Rat)
  | [] => [x]
  | y :: ys => if y.2.2 ≥ x.2.2 then y :: insertCandidate x ys else x :: y :: ys

def sortCandidates (l : List (Nat × Nat × Rat)) : List (Nat × Nat × Rat) :=
  l.foldl (fun acc x => insertCandidate x acc) []

/-- Pass 3 of `align_blocks` (align.rs): all pairwise similarities `≥ 0.7`
among still-unmatched blocks, consumed greedily in descending order with
per-pass used-index sets. -/
def pass3Step (left right : List Block) (acc : AlignState × List Nat × List Nat)
    (cand : Nat × Nat × Rat) : AlignState × List Nat × List Nat :=
  if cand.1 ∈ acc.2.1 ∨ cand.2.1 ∈ acc.2.2 then acc
  else
    let lb := left.getD cand.1 defaultBlock
    let rb := right.getD cand.2.1 defaultBlock
    let is_move := decide (lb.structural_path ≠ rb.structural_path)
      && decide (cand.2.2 ≥ MOVE_THRESHOLD)
    (addPair acc.1 cand.1 cand.2.1 cand.2.2 is_move,
      acc.2.1 ++ [cand.1], acc.2.2 ++ [cand.2.1])

/-- The similarity candidates of pass 3: all still-unmatched pairs scoring
`≥ 0.7`, produced left-outer/right-inner exactly as the Rust loops do. -/
def pass3Candidates (left right : List Block) (st0 : AlignState) :
    List (Nat × Nat × Rat) :=
  let unmatched_left := (List.range left.length).filter
    (fun i => decide (i ∉ st0.leftMatched))
  let unmatched_right := (List.range right.length).filter
    (fun i => decide (i ∉ st0.rightMatched))
  unmatched_left.flatMap (fun li =>
    unmatched_right.filterMap (fun ri =>
      let sim := block_similarity (left.getD li defaultBlock)
        (right.getD ri defaultBlock)
      if sim ≥ SIMILARITY_THRESHOLD then some (li, ri, sim) else none))

def pass3 (left right : List Block) (st0 : AlignState) : AlignState :=
  ((sortCandidates (pass3Candidates left right st0)).foldl
    (pass3Step left right) (st0, [], [])).1

/-- Interior of one LCS DP row (align.rs `lcs_align`): `leftv` is the value
just computed to the left, `es` the remaining equality flags, `prevSeg` the
previous row from column `j - 1` on (`head = prev[j-1]`). -/
def lcsRowAux : Nat → List Bool → List Nat → List Nat
  | _, [], _ => []
  | leftv, e :: es, prevSeg =>
    let pj1 := prevSeg.headD 0
    let pj := prevSeg.tail.headD 0
    let v := if e then pj1 + 1 else max pj leftv
    v :: lcsRowAux v es prevSeg.tail

/-- `lcsRow prev flags` is the DP row following `prev` for the given
per-column equality flags; column `0` is `0`. -/
def lcsRow (prev : List Nat) (eqFlags : List Bool) : List Nat :=
  0 :: lcsRowAux 0 eqFlags prev

/-- The full `(n+1) × (m+1)` LCS DP table of `lcs_align` (align.rs), built
row by row exactly like the Rust nested loops. -/
def lcsTable (n m : Nat) (eq : Nat → Nat → Bool) : List (List Nat) :=
  (List.range n).foldl
    (fun rows i =>
      rows ++ [lcsRow (rows.getLastD []) ((List.range m).map (fun j => eq i j))])
    [List.replicate (m + 1) 0]

def lcsDp (n m : Nat) (eq : Nat → Nat → Bool) (i j : Nat) : Nat :=
  ((lcsTable n m eq).getD i []).getD j 0

/-- The backtracking loop of `lcs_align` (align.rs).  Every iteration
decreases `i + j`, so `fuel = i + j` makes the bound irrelevant; building
the list back-to-front with an append mirrors the Rust push-then-reverse. -/
def lcsBack (dp : Nat → Nat → Nat) (eq : Nat → Nat → Bool) :
    Nat → Nat → Nat → List (Nat × Nat)
  | 0, _, _ => []
  | _ + 1, 0, _ => []
  | _ + 1, _ + 1, 0 => []
  | fuel + 1, i + 1, j + 1 =>
    if eq i j then lcsBack dp eq fuel i j ++ [(i, j)]
    else if dp i (j + 1) ≥ dp (i + 1) j then lcsBack dp eq fuel i (j + 1)
    else lcsBack dp eq fuel (i + 1) j

/-- LCS position pairs for sequences of lengths `n`, `m` under `eq`. -/
def lcsPairs (n m : Nat) (eq : Nat → Nat → Bool) : List (Nat × Nat) :=
  lcsBack (lcsDp n m eq) eq (n + m) n m

/-- Pass 4 of `align_blocks` (align.rs): LCS over the remaining indices
using `canonical_text` equality; a pair is admitted only at `sim ≥ 0.7`. -/
def pass4Step (left right : List Block) (st : AlignState) (p : Nat × Nat) :
    AlignState :=
  let lb := left.getD p.1 defaultBlock
  let rb := right.getD p.2 defaultBlock
  let sim := block_similarity lb rb
  if sim ≥ SIMILARITY_THRESHOLD then
    let is_move := decide (lb.structural_path ≠ rb.structural_path)
      && decide (sim ≥ MOVE_THRESHOLD)
    addPair st p.1 p.2 sim is_move
  else st

/-- The LCS index pairs of pass 4, mapped back to original indices. -/
def pass4LcsPairs (left right : List Block) (st0 : AlignState) :
    List (Nat × Nat) :=
  let remaining_left := (List.range left.length).filter
    (fun i => decide (i ∉ st0.leftMatched))
  let remaining_right := (List.range right.length).filter
    (fun i => decide (i ∉ st0.rightMatched))
  let eqText := fun a b =>
    (left.getD (remaining_left.getD a 0) defaultBlock).canonical_text
      == (right.getD (remaining_right.getD b 0) defaultBlock).canonical_text
  (lcsPairs remaining_left.length remaining_right.length eqText).map
    (fun p => (remaining_left.getD p.1 0, remaining_right.getD p.2 0))

def pass4 (left right : List Block) (st0 : AlignState) : AlignState :=
  (pass4LcsPairs left right st0).foldl (pass4Step left right) st0

/-- The `pair_map` lookup of `align_blocks` (align.rs): a `HashMap`
collected from the pair list, so the LAST pair with the left index wins. -/
def pair_lookup (pairs : List (Nat × Nat × Rat × Bool)) (li : Nat) :
    Option (Nat × Rat × Bool) :=
  (pairs.reverse.find? (fun p => p.1 == li)).map (fun p => p.2)

/-- `emit_insertions_before` (align.rs): `InsertedRight` for every right
index `< before_ri` not yet emitted and not matched; returns the updated
emitted set and the emitted records. -/
def emit_insertions_before (before_ri : Nat) (emitted matchedR : List Nat) :
    List Nat × List BlockAlignment :=
  (List.range before_ri).foldl
    (fun (acc : List Nat × List BlockAlignment) ri =>
      if ri ∉ acc.1 ∧ ri ∉ matchedR then
        (acc.1 ++ [ri], acc.2 ++ [BlockAlignment.insertedRight ri])
      else acc)
    (emitted, [])

/-- The output-assembly loop body of `align_blocks` (align.rs): emit the
record for left index `li`, preceded by the pending insertions. -/
def alignEmitStep (pairs : List (Nat × Nat × Rat × Bool)) (matchedR : List Nat)
    (acc : List Nat × List BlockAlignment) (li : Nat) :
    List Nat × List BlockAlignment :=
  match pair_lookup pairs li with
  | some v =>
    let ei := emit_insertions_before v.1 acc.1 matchedR
    let record := if v.2.2 then BlockAlignment.moved li v.1 v.2.1
      else BlockAlignment.matched li v.1 v.2.1
    (ei.1 ++ [v.1], acc.2 ++ ei.2 ++ [record])
  | none => (acc.1, acc.2 ++ [BlockAlignment.deletedLeft li])

/-- `align_blocks` (align.rs): the four passes followed by assembly in left
traversal order, with trailing `InsertedRight` records for the unmatched
right blocks not yet emitted. -/
def align_blocks (left right : List Block) : List BlockAlignment :=
  let st4 := pass4 left right (pass3 left right (pass2 left right (pass1 left right)))
  let assembled := (List.range left.length).foldl
    (alignEmitStep st4.pairs st4.rightMatched) ([], [])
  assembled.2 ++ (((List.range right.length).filter
    (fun ri => decide (ri ∉ assembled.1 ∧ ri ∉ st4.rightMatched))).map
      BlockAlignment.insertedRight)

/-- The pairs recorded by pass 2 (the pass-1 pairs are a prefix). -/
def pass2NewPairs (left right : List Block) : List (Nat × Nat × Rat × Bool) :=
  (pass2 left right (pass1 left right)).pairs.drop (pass1 left right).pairs.length

/-- The pairs recorded by pass 3. -/
def pass3NewPairs (left right : List Block) : List (Nat × Nat × Rat × Bool) :=
  (pass3 left right (pass2 left right (pass1 left right))).pairs.drop
    (pass2 left right (pass1 left right)).pairs.length

/-- The pairs recorded by pass 4. -/
def pass4NewPairs (left right : List Block) : List (Nat × Nat × Rat × Bool) :=
  (pass4 left right (pass3 left right (pass2 left right (pass1 left right)))).pairs.drop
    (pass3 left right (pass2 left right (pass1 left right))).pairs.length

/-- Left block of the anchor-collision example: the anchor string matches
the right block while the structural path and most of the text differ. -/
def cexLeftBlock : Block :=
  { defaultBlock with
    id := 1, structural_path := "1.1",
    anchor_signature := "anchor-x", clause_hash := "h1",
    canonical_text := "a b c d", display_text := "a b c d" }

/-- Right block of the anchor-collision example. -/
def cexRightBlock : Block :=
  { defaultBlock with
    id := 2, structural_path := "2.1",
    anchor_signature := "anchor-x", clause_hash := "h2",
    canonical_text := "a x y z", display_text := "a x y z" }

/-- Structural invariant of the alignment passes: pair left/right indices
are duplicate-free and in bounds, every paired index is marked matched, and
every matched right index comes from some pair. -/
def AlignInv (n m : Nat) (st : AlignState) : Prop :=
  (st.pairs.map (fun p => p.1)).Nodup ∧
  (st.pairs.map (fun p => p.2.1)).Nodup ∧
  (∀ p ∈ st.pairs,
    p.1 < n ∧ p.2.1 < m ∧ p.1 ∈ st.leftMatched ∧ p.2.1 ∈ st.rightMatched) ∧
  (∀ r ∈ st.rightMatched, ∃ p ∈ st.pairs, p.2.1 = r)

/-- `true` iff the record mentions left index `l`. -/
def leftRecOf (l : Nat) : BlockAlignment → Bool
  | .matched l' _ _ => l' == l
  | .moved l' _ _ => l' == l
  | .deletedLeft l' => l' == l
  | .insertedRight _ => false

/-- `true` iff the record mentions right index `r`. -/
def rightRecOf (r : Nat) : BlockAlignment → Bool
  | .matched _ r' _ => r' == r
  | .moved _ r' _ => r' == r
  | .insertedRight r' => r' == r
  | .deletedLeft _ => false

/-! ## rt-compare: token diff (diff.rs) and rt-merge: MergeEngine (merge.rs)

`token_diff` (diff.rs) obtains its op stream from the Myers algorithm of
the external `similar` crate, which is not part of this repository; that
op stream is modelled FROM THE SPECIFICATION as the standard LCS-based
diff, reusing the LCS machinery of pass 4.  Between two consecutive
common tokens the stream lists the deleted left tokens before the
inserted right tokens — the order `token_diff` itself produces when it
expands `similar`'s ops (`Replace` is decomposed into `Delete` then
`Insert`).  Everything else (`group_and_merge`, the delta conversions and
`MergeEngine::merge`) is translated from diff.rs / merge.rs.  The random
layer and merge UUIDs do not influence conflicts or tallies and are
modelled as fixed numeric tags. -/

inductive RawTag where
  | equal
  | delete
  | insert
deriving DecidableEq, Repr

structure RawChange where
  tag : RawTag
  left_token : Option Token
  right_token : Option Token
deriving DecidableEq, Repr

def defaultToken : Token :=
  { text := "", kind := TokenKind.word, normalized := "", offset := 0 }

/-- The op stream of `token_diff` (diff.rs) expanded to per-token raw
changes: for each common pair the skipped left tokens as deletes, then the
skipped right tokens as inserts, then the equal pair; tokens after the
last common pair trail as deletes then inserts. -/
def rawChanges (left right : List Token) :
    List (Nat × Nat) → Nat → Nat → List RawChange
  | [], i, j =>
    ((left.drop i).map
      (fun t => { tag := RawTag.delete, left_token := some t,
                  right_token := none })) ++
    ((right.drop j).map
      (fun t => { tag := RawTag.insert, left_token := none,
                  right_token := some t }))
  | p :: rest, i, j =>
    (((left.drop i).take (p.1 - i)).map
      (fun t => { tag := RawTag.delete, left_token := some t,
                  right_token := none })) ++
    (((right.drop j).take (p.2 - j)).map
      (fun t => { tag := RawTag.insert, left_token := none,
                  right_token := some t })) ++
    ({ tag := RawTag.equal, left_token := some (left.getD p.1 defaultToken),
       right_token := some (right.getD p.2 defaultToken) } : RawChange)
      :: rawChanges left right rest (p.1 + 1) (p.2 + 1)

inductive DiffKind where
  | equal
  | inserted
  | deleted
  | substituted
deriving DecidableEq, Repr

structure TokenDiff where
  kind : DiffKind
  left_tokens : List String
  right_tokens : List String
  left_offset : Nat
  right_offset : Nat
deriving DecidableEq, Repr

/-- Step 1 of `group_and_merge` (diff.rs): group consecutive same-tag
changes, pushing only non-empty texts; a group is
`(tag, left_texts, right_texts, left_offset, right_offset)`. -/
def groupStep (groups : List (RawTag × List String × List String × Nat × Nat))
    (ch : RawChange) : List (RawTag × List String × List String × Nat × Nat) :=
  let lt := (ch.left_token.map (fun t => t.text)).getD ""
  let rt := (ch.right_token.map (fun t => t.text)).getD ""
  let lo := (ch.left_token.map (fun t => t.offset)).getD 0
  let ro := (ch.right_token.map (fun t => t.offset)).getD 0
  match groups.getLast? with
  | some last =>
    if last.1 = ch.tag then
      groups.dropLast ++ [(last.1,
        last.2.1 ++ (if lt ≠ "" then [lt] else []),
        last.2.2.1 ++ (if rt ≠ "" then [rt] else []),
        last.2.2.2.1, last.2.2.2.2)]
    else
      groups ++ [(ch.tag, (if lt ≠ "" then [lt] else []),
        (if rt ≠ "" then [rt] else []), lo, ro)]
  | none =>
    groups ++ [(ch.tag, (if lt ≠ "" then [lt] else []),
      (if rt ≠ "" then [rt] else []), lo, ro)]

def tagKind : RawTag → DiffKind
  | RawTag.equal => DiffKind.equal
  | RawTag.delete => DiffKind.deleted
  | RawTag.insert => DiffKind.inserted

/-- Step 2 of `group_and_merge` (diff.rs): merge each adjacent
Delete+Insert group pair into one `Substituted` entry.  NOTE the source
destructures `groups[i + 1]` as `(_, ref rt2, _, _, ro2)`, so `rt2` is the
insert group's (always empty) LEFT text list — faithfully `g2.2.1`. -/
def mergeGroups : List (RawTag × List String × List String × Nat × Nat) →
    List TokenDiff
  | [] => []
  | [g] =>
    [{ kind := tagKind g.1, left_tokens := g.2.1, right_tokens := g.2.2.1,
       left_offset := g.2.2.2.1, right_offset := g.2.2.2.2 }]
  | g :: g2 :: rest =>
    if g.1 = RawTag.delete ∧ g2.1 = RawTag.insert then
      { kind := DiffKind.substituted, left_tokens := g.2.1,
        right_tokens := g2.2.1, left_offset := g.2.2.2.1,
        right_offset := g2.2.2.2.2 } :: mergeGroups rest
    else
      { kind := tagKind g.1, left_tokens := g.2.1, right_tokens := g.2.2.1,
        left_offset := g.2.2.2.1, right_offset := g.2.2.2.2 }
        :: mergeGroups (g2 :: rest)

/-- `token_diff` (diff.rs): LCS op stream on the normalized texts, grouped
and merged. -/
def token_diff (left right : List Token) : List TokenDiff :=
  let eqNorm := fun i j =>
    (left.getD i defaultToken).normalized ==
      (right.getD j defaultToken).normalized
  mergeGroups ((rawChanges left right
    (lcsPairs left.length right.length eqNorm) 0 0).foldl groupStep [])

/-- `diffs_to_base_deltas` (merge.rs): `Deleted`/`Substituted` groups with
left tokens become `Delete`/`Modify` deltas over the base token range. -/
def diffs_to_base_deltas (diffs : List TokenDiff) (layer_id : Nat)
    (reviewer_id : String) (block_id : Nat) : List BlockDelta :=
  (diffs.foldl (fun (acc : List BlockDelta × Nat) diff =>
    let left_len := diff.left_tokens.length
    match diff.kind with
    | DiffKind.equal => (acc.1, acc.2 + left_len)
    | DiffKind.deleted =>
      if left_len > 0 then
        (acc.1 ++ [{
          review_layer_id := layer_id, reviewer_id := reviewer_id,
          block_id := block_id, delta_type := DeltaType.delete,
          token_start := acc.2, token_end := acc.2 + left_len - 1,
          delta_payload := JsonVal.obj [("text",
            JsonVal.str (String.intercalate " " diff.left_tokens))] }],
         acc.2 + left_len)
      else acc
    | DiffKind.substituted =>
      if left_len > 0 then
        (acc.1 ++ [{
          review_layer_id := layer_id, reviewer_id := reviewer_id,
          block_id := block_id, delta_type := DeltaType.modify,
          token_start := acc.2, token_end := acc.2 + left_len - 1,
          delta_payload := JsonVal.obj [("text",
            JsonVal.str (String.intercalate " " diff.left_tokens))] }],
         acc.2 + left_len)
      else acc
    | DiffKind.inserted => acc) ([], 0)).1

/-- `diffs_to_incoming_deltas` (merge.rs): `Inserted` groups become
`Insert` deltas anchored at the running base index; `Substituted` groups
with both sides become `Modify` deltas over the base range. -/
def diffs_to_incoming_deltas (diffs : List TokenDiff) (layer_id : Nat)
    (reviewer_id : String) (block_id : Nat) : List BlockDelta :=
  (diffs.foldl (fun (acc : List BlockDelta × Nat) diff =>
    let left_len := diff.left_tokens.length
    let right_len := diff.right_tokens.length
    match diff.kind with
    | DiffKind.equal => (acc.1, acc.2 + left_len)
    | DiffKind.deleted => (acc.1, acc.2 + left_len)
    | DiffKind.inserted =>
      if right_len > 0 then
        (acc.1 ++ [{
          review_layer_id := layer_id, reviewer_id := reviewer_id,
          block_id := block_id, delta_type := DeltaType.insert,
          token_start := acc.2,
          token_end := if acc.2 > 0 then acc.2 else 0,
          delta_payload := JsonVal.obj [("text",
            JsonVal.str (String.intercalate " " diff.right_tokens))] }],
         acc.2)
      else acc
    | DiffKind.substituted =>
      if right_len > 0 ∧ left_len > 0 then
        (acc.1 ++ [{
          review_layer_id := layer_id, reviewer_id := reviewer_id,
          block_id := block_id, delta_type := DeltaType.modify,
          token_start := acc.2, token_end := acc.2 + left_len - 1,
          delta_payload := JsonVal.obj [("text",
            JsonVal.str (String.intercalate " " diff.right_tokens))] }],
         acc.2 + left_len)
      else if left_len = 0 ∧ right_len > 0 then
        (acc.1 ++ [{
          review_layer_id := layer_id, reviewer_id := reviewer_id,
          block_id := block_id, delta_type := DeltaType.insert,
          token_start := acc.2, token_end := acc.2,
          delta_payload := JsonVal.obj [("text",
            JsonVal.str (String.intercalate " " diff.right_tokens))] }],
         acc.2)
      else (acc.1, acc.2 + left_len)) ([], 0)).1

/-- `MergeResult` (merge.rs) restricted to the behaviour-bearing fields:
`merge_id` and `output_doc_id` are freshly generated UUIDs. -/
structure MergeResult where
  base_doc_id : Nat
  incoming_doc_id : Nat
  conflicts : List MergeConflict
  auto_resolved : Nat
  pending_review : Nat
deriving DecidableEq, Repr

/-- The per-alignment loop body of `MergeEngine::merge` (merge.rs),
accumulating `(all_conflicts, auto_resolved)`.  Rust indexes the block
slices with the alignment indices; `getD` models the in-bounds access. -/
def mergeStep (base_blocks incoming_blocks : List Block)
    (base_reviewer incoming_reviewer : String)
    (acc : List MergeConflict × Nat) (alignment : BlockAlignment) :
    List MergeConflict × Nat :=
  match alignment with
  | BlockAlignment.matched l r _ | BlockAlignment.moved l r _ =>
    let base_block := base_blocks.getD l defaultBlock
    let inc_block := incoming_blocks.getD r defaultBlock
    if base_block.clause_hash = inc_block.clause_hash then (acc.1, acc.2 + 1)
    else
      let diffs := token_diff base_block.tokens inc_block.tokens
      let base_deltas :=
        diffs_to_base_deltas diffs 0 base_reviewer base_block.id
      let incoming_deltas :=
        diffs_to_incoming_deltas diffs 1 incoming_reviewer base_block.id
      let block_conflicts := detect_conflicts base_deltas incoming_deltas
      if block_conflicts.isEmpty then (acc.1, acc.2 + 1)
      else (acc.1 ++ block_conflicts, acc.2)
  | BlockAlignment.insertedRight _ => (acc.1, acc.2 + 1)
  | BlockAlignment.deletedLeft _ => (acc.1, acc.2 + 1)

/-- `MergeEngine::merge` (merge.rs).  The reviewer labels are the engine's
two fields (`"base"` / `"incoming"` for `MergeEngine::new`). -/
def merge (base_doc_id incoming_doc_id : Nat)
    (base_blocks incoming_blocks : List Block)
    (base_reviewer incoming_reviewer : String) : MergeResult :=
  let alignments := align_blocks base_blocks incoming_blocks
  let acc := alignments.foldl
    (mergeStep base_blocks incoming_blocks base_reviewer incoming_reviewer)
    ([], 0)
  { base_doc_id := base_doc_id, incoming_doc_id := incoming_doc_id,
    conflicts := acc.1, auto_resolved := acc.2,
    pending_review := (acc.1.filter
      (fun c => decide (c.resolution = ConflictResolution.pending))).length }

/-- Base-side block of the token-synthesis example: text `a b`, no tokens. -/
def c4BaseBlockEmpty : Block :=
  { defaultBlock with
    id := 1, structural_path := "1.1", clause_hash := "hash-base",
    canonical_text := "a b", display_text := "a b" }

/-- Incoming-side block of the token-synthesis example: text `b c`, no
tokens, same structural path, different clause hash. -/
def c4IncBlockEmpty : Block :=
  { defaultBlock with
    id := 2, structural_path := "1.1", clause_hash := "hash-inc",
    canonical_text := "b c", display_text := "b c" }

/-- The same base block with its token stream populated from the
canonical text, as `ensure_tokens` (worker.rs) would produce it. -/
def c4BaseBlockTok : Block :=
  { c4BaseBlockEmpty with tokens := tokenize "a b" }

/-- The same incoming block with its token stream populated. -/
def c4IncBlockTok : Block :=
  { c4IncBlockEmpty with tokens := tokenize "b c" }

deriving instance DecidableEq for Except

/-! ## Theorems -/

/-- **C1** — `validate_transition` realises exactly the specification's
transition table: every one of the thirteen listed `(state, event)` pairs
yields the listed successor state, and every other pair (in particular every
event submitted in COMPLETED or ABORTED) returns an error. -/
theorem validate_transition_matches_spec_table :
    ∀ (s : WorkflowState) (e : EventType),
      (validate_transition s e).toOption = specTransitionTable s e := by
  decide

/-- **C5** — `validate_resolution` succeeds exactly for the three transitions
out of `pending` into a resolved state, and every other pair (including
`pending → pending`, resolved → `pending` and resolved → different resolved)
is rejected with an `InvalidInput` error. -/
theorem validate_resolution_pending_only :
    ∀ (c t : ConflictResolution),
      ((validate_resolution c t).toOption = some () ↔
        c = .pending ∧ (t = .acceptedBase ∨ t = .acceptedIncoming ∨ t = .manual)) ∧
      (¬ (c = .pending ∧ t ≠ .pending) →
        errIsInvalidInput (validate_resolution c t) = true) := by
  decide

/-- Every error produced by `validate_transition` is an `InvalidInput`
error (helper shared by the workflow-engine results). -/
theorem validate_transition_error_invalidInput :
    ∀ (s : WorkflowState) (e : EventType),
      (validate_transition s e).toOption = none →
      errIsInvalidInput (validate_transition s e) = true := by
  decide

/-- **C9 counterexample** — decoding the unknown string `"mystery"` does not
fail for `block_type`, `token.kind` or `document_type`: the `From<&str>`
implementations silently fall back to `Paragraph`, `Word` and `Original`,
contradicting the claim that every unknown enum string yields an
`InvalidInput` error. -/
theorem enum_decoding_fallback_counterexample :
    BlockType.fromStr "mystery" = BlockType.paragraph ∧
    TokenKind.fromStr "mystery" = TokenKind.word ∧
    DocumentType.fromStr "mystery" = DocumentType.original := by
  decide

/-- **C9 (amended)** — decoding an unknown string fails with `InvalidInput`
for workflow states and event types, while the `From<&str>` decoders for
`block_type`, `token.kind` and `document_type` silently map unknown strings
to the default variants `Paragraph`, `Word` and `Original`. -/
theorem enum_decoding_amended (s : String)
    (hb : ¬ (s = "section" ∨ s = "clause" ∨ s = "subclause" ∨ s = "paragraph"
          ∨ s = "table" ∨ s = "table_row" ∨ s = "table_cell"))
    (hk : ¬ (s = "number" ∨ s = "punctuation" ∨ s = "whitespace"
          ∨ s = "defined_term" ∨ s = "party_ref" ∨ s = "date_ref"))
    (hd : ¬ (s = "redline" ∨ s = "merged" ∨ s = "snapshot"))
    (hw : ¬ (s = "DRAFT" ∨ s = "COMPARE_RUNNING" ∨ s = "FLOW_CREATED"
          ∨ s = "IN_REVIEW" ∨ s = "REVIEW_CLOSED" ∨ s = "COMPILING_EDITS"
          ∨ s = "READY_FOR_FINALIZATION" ∨ s = "COMPLETED" ∨ s = "ABORTED"))
    (he : ¬ (s = "workflow_created" ∨ s = "compare_started" ∨ s = "compare_completed"
          ∨ s = "flow_created" ∨ s = "review_started" ∨ s = "reviewer_assigned"
          ∨ s = "delta_submitted" ∨ s = "review_closed" ∨ s = "edit_compilation_started"
          ∨ s = "edit_compilation_completed" ∨ s = "finalization_ready"
          ∨ s = "workflow_completed" ∨ s = "workflow_aborted")) :
    BlockType.fromStr s = BlockType.paragraph ∧
    TokenKind.fromStr s = TokenKind.word ∧
    DocumentType.fromStr s = DocumentType.original ∧
    errIsInvalidInput (WorkflowState.fromStr s) = true ∧
    errIsInvalidInput (EventType.fromStr s) = true := by
  refine ⟨?_, ?_, ?_, ?_, ?_⟩ <;>
    simp_all [BlockType.fromStr, TokenKind.fromStr, DocumentType.fromStr,
      WorkflowState.fromStr, EventType.fromStr, errIsInvalidInput,
      RtError.isInvalidInput]

/-- **C9 witness** — the amended statement evaluated at the concrete unknown
string `"zzz"`. -/
theorem enum_decoding_amended_witness :
    BlockType.fromStr "zzz" = BlockType.paragraph ∧
    TokenKind.fromStr "zzz" = TokenKind.word ∧
    DocumentType.fromStr "zzz" = DocumentType.original ∧
    errIsInvalidInput (WorkflowState.fromStr "zzz") = true ∧
    errIsInvalidInput (EventType.fromStr "zzz") = true :=
  enum_decoding_amended "zzz" (by decide) (by decide) (by decide) (by decide)
    (by decide)

/-- **C6** — submitting an event that is illegal in the workflow's current
projected state returns an `InvalidInput` error and performs no write: the
workflow rows (hence the stored state and `updated_at`) and the event log
are exactly as before. -/
theorem submit_event_illegal_leaves_db_unchanged
    (db : Db) (wid : Nat) (e : EventType) (actor payload : String)
    (eid now : Nat) (w : Workflow)
    (hget : get_workflow db wid = .ok w)
    (hbad : (validate_transition w.state e).toOption = none) :
    errIsInvalidInput (submit_event db wid e actor payload eid now).1 = true ∧
    (submit_event db wid e actor payload eid now).2.workflows = db.workflows ∧
    (submit_event db wid e actor payload eid now).2.events = db.events := by
  cases hv : validate_transition w.state e with
  | ok ns =>
      rw [hv] at hbad
      simp [Except.toOption] at hbad
  | error err =>
      have herr := validate_transition_error_invalidInput w.state e hbad
      rw [hv] at herr
      simp only [submit_event, hget, hv]
      exact ⟨herr, trivial, trivial⟩

/-- **C6 witness** — on the concrete one-workflow database `sampleDb` (in
DRAFT), submitting `review_started` fails with `InvalidInput` and leaves
both tables untouched. -/
theorem submit_event_illegal_leaves_db_unchanged_witness :
    errIsInvalidInput (submit_event sampleDb 1 .reviewStarted "bob" "" 11 5).1 = true ∧
    (submit_event sampleDb 1 .reviewStarted "bob" "" 11 5).2.workflows = sampleDb.workflows ∧
    (submit_event sampleDb 1 .reviewStarted "bob" "" 11 5).2.events = sampleDb.events :=
  submit_event_illegal_leaves_db_unchanged sampleDb 1 .reviewStarted "bob" "" 11 5
    { id := 1, document_id := 7, state := WorkflowState.draft,
      initiator_id := "alice", created_at := 0, updated_at := 0 }
    (by rfl) (by decide)

/-- **C2** — for a pair of deltas on the same block, `detect_conflicts`
emits `delete_modify` when exactly one side is a delete (with the deleted
side's content `None`), `content_overlap` when both are non-delete and the
inclusive ranges overlap under `a_start ≤ b_end ∧ b_start ≤ a_end`, and
nothing otherwise — in particular never for two deletes. -/
theorem detect_conflicts_pair_classification (b i : BlockDelta)
    (hblk : b.block_id = i.block_id) :
    (ranges_overlap b.token_start b.token_end i.token_start i.token_end = true ↔
      (b.token_start ≤ i.token_end ∧ i.token_start ≤ b.token_end)) ∧
    (b.delta_type = DeltaType.delete ∧ i.delta_type ≠ DeltaType.delete →
      detect_conflicts [b] [i] =
        [MergeConflict.new b.block_id ConflictType.deleteModify none
          (payload_text i.delta_payload)]) ∧
    (i.delta_type = DeltaType.delete ∧ b.delta_type ≠ DeltaType.delete →
      detect_conflicts [b] [i] =
        [MergeConflict.new b.block_id ConflictType.deleteModify
          (payload_text b.delta_payload) none]) ∧
    (b.delta_type ≠ DeltaType.delete ∧ i.delta_type ≠ DeltaType.delete ∧
        ranges_overlap b.token_start b.token_end i.token_start i.token_end = true →
      detect_conflicts [b] [i] =
        [MergeConflict.new b.block_id ConflictType.contentOverlap
          (payload_text b.delta_payload) (payload_text i.delta_payload)]) ∧
    (b.delta_type = DeltaType.delete ∧ i.delta_type = DeltaType.delete →
      detect_conflicts [b] [i] = []) ∧
    (b.delta_type ≠ DeltaType.delete ∧ i.delta_type ≠ DeltaType.delete ∧
        ranges_overlap b.token_start b.token_end i.token_start i.token_end = false →
      detect_conflicts [b] [i] = []) := by
  refine ⟨?_, ?_, ?_, ?_, ?_, ?_⟩
  · simp [ranges_overlap]
  · rintro ⟨h1, h2⟩
    simp [detect_conflicts, conflict_for_pair, hblk, h1, h2]
  · rintro ⟨h1, h2⟩
    simp [detect_conflicts, conflict_for_pair, hblk, h1, h2]
  · rintro ⟨h1, h2, h3⟩
    simp [detect_conflicts, conflict_for_pair, hblk, h1, h2, h3]
  · rintro ⟨h1, h2⟩
    simp [detect_conflicts, conflict_for_pair, hblk, h1, h2]
  · rintro ⟨h1, h2, h3⟩
    simp [detect_conflicts, conflict_for_pair, hblk, h1, h2, h3]

/-- **C2 witness** — at a concrete base-side delete `[0,10]` against an
incoming modify `[2,7]` on block `5`, exactly one `delete_modify` conflict
with `base_content = None` is produced. -/
theorem detect_conflicts_pair_classification_witness :
    detect_conflicts
      [{ review_layer_id := 1, reviewer_id := "base", block_id := 5,
         delta_type := DeltaType.delete, token_start := 0, token_end := 10,
         delta_payload := JsonVal.obj [("text", JsonVal.str "gone")] }]
      [{ review_layer_id := 2, reviewer_id := "incoming", block_id := 5,
         delta_type := DeltaType.modify, token_start := 2, token_end := 7,
         delta_payload := JsonVal.obj [("text", JsonVal.str "changed")] }] =
      [MergeConflict.new 5 ConflictType.deleteModify none (some "changed")] := by
  have h := (detect_conflicts_pair_classification
    { review_layer_id := 1, reviewer_id := "base", block_id := 5,
      delta_type := DeltaType.delete, token_start := 0, token_end := 10,
      delta_payload := JsonVal.obj [("text", JsonVal.str "gone")] }
    { review_layer_id := 2, reviewer_id := "incoming", block_id := 5,
      delta_type := DeltaType.modify, token_start := 2, token_end := 7,
      delta_payload := JsonVal.obj [("text", JsonVal.str "changed")] }
    (by decide)).2.1 ⟨by decide, by decide⟩
  exact h.trans (by decide)

/-- An ASCII digit is not alphabetic in the modelled character classes. -/
theorem digit_not_alpha (c : Char) (h : rustIsAsciiDigit c = true) :
    rustIsAlphabetic c = false := by
  simp only [rustIsAsciiDigit, Bool.and_eq_true, decide_eq_true_eq] at h
  simp only [rustIsAlphabetic, rustIsUppercase, rustIsLowercase, Bool.or_eq_false_iff,
    Bool.and_eq_false_iff, decide_eq_false_iff_not, not_le]
  omega

/-- Characterisation of the `is_numeric` scanning loop: it succeeds iff
every character is a digit, separator or letter, and then reports whether a
digit and a letter were seen. -/
theorem isNumericLoop_eq (cs : List Char) (hd ha : Bool) :
    isNumericLoop cs hd ha =
      if cs.all numValid then
        some (hd || cs.any rustIsAsciiDigit, ha || cs.any rustIsAlphabetic)
      else none := by
  induction cs generalizing hd ha with
  | nil => simp [isNumericLoop]
  | cons c cs ih =>
    by_cases h1 : rustIsAsciiDigit c = true
    · have hna := digit_not_alpha c h1
      simp [isNumericLoop, h1, ih, numValid, hna]
    · by_cases h2 : c = '.' ∨ c = ','
      · have halpha : rustIsAlphabetic c = false := by
          rcases h2 with rfl | rfl <;> decide
        have hdig : rustIsAsciiDigit c = false := by
          rcases h2 with rfl | rfl <;> decide
        simp [isNumericLoop, hdig, h2, ih, numValid, halpha]
      · by_cases h3 : rustIsAlphabetic c = true
        · have hdig : rustIsAsciiDigit c = false := by simpa using h1
          simp [isNumericLoop, hdig, h2, h3, ih, numValid]
        · have hdig : rustIsAsciiDigit c = false := by simpa using h1
          have halpha : rustIsAlphabetic c = false := by simpa using h3
          simp [isNumericLoop, hdig, h2, h3, numValid, halpha]

/-- `is_numeric` computes exactly the spec-style rule `specNumberAmended`. -/
theorem is_numeric_eq_specNumberAmended (w : String) :
    is_numeric w = specNumberAmended w := by
  rcases hw : w.toList with _ | ⟨c, cs⟩ <;> simp only [String.toList] at hw
  · simp [is_numeric, specNumberAmended, String.toList, hw]
  · simp only [is_numeric, specNumberAmended, String.toList, hw]
    rw [isNumericLoop_eq]
    by_cases hall : (if c = '+' ∨ c = '-' then cs else c :: cs).all numValid = true
    · simp only [hall, if_true]
      cases hany : (if c = '+' ∨ c = '-' then cs else c :: cs).any rustIsAlphabetic <;>
        simp [hany, is_ordinal_suffix]
    · simp [hall]

/-- Every token produced by the tokenize loop is either a punctuation token
or a word-run token whose kind is `classify_word` of its text. -/
theorem tokenizeGo_kinds (fuel : Nat) (cs : List Char) (off : Nat) (t : Token)
    (ht : t ∈ tokenizeGo fuel cs off) :
    t.kind = TokenKind.punctuation ∨ t.kind = classify_word t.text := by
  induction fuel generalizing cs off with
  | zero => simp [tokenizeGo] at ht
  | succ fuel ih =>
    cases cs with
    | nil => simp [tokenizeGo] at ht
    | cons c cs =>
      by_cases h1 : rustIsWhitespace c = true
      · simp only [tokenizeGo, h1, if_true] at ht
        exact ih _ _ ht
      · by_cases h2 : is_punctuation c = true
        · simp only [tokenizeGo, h1, h2, Bool.false_eq_true, if_false, if_true,
            List.mem_cons] at ht
          rcases ht with rfl | ht
          · exact Or.inl rfl
          · exact ih _ _ ht
        · simp only [tokenizeGo, h1, h2, Bool.false_eq_true, if_false,
            List.mem_cons] at ht
          rcases ht with rfl | ht
          · exact Or.inr rfl
          · exact ih _ _ ht

/-- **C8 counterexample** — `tokenize "1first"` yields a single token that
the code classifies as Number, while the claim's pattern (alphabetic suffix
exactly `st`/`nd`/`rd`/`th`) rejects `1first`: the code only checks that
the lowercased word ends with one of those two-letter strings. -/
theorem tokenize_number_counterexample :
    ((tokenize "1first").map (fun t => t.kind) = [TokenKind.number]) ∧
    specNumberClaim "1first" = false := by
  decide

/-- **C8 (amended)** — a non-punctuation token produced by `tokenize` is
classified Number iff: after an optional leading sign every character is a
digit, a `.`/`,` separator or a letter, at least one digit occurs, and if
any letter occurs the lowercased token merely ends with `st`, `nd`, `rd`
or `th` (so letters may be interleaved and the suffix check is an
ends-with test, not an exact-suffix test). -/
theorem tokenize_number_iff_code_rule (s : String) (t : Token)
    (ht : t ∈ tokenize s) (hp : t.kind ≠ TokenKind.punctuation) :
    (t.kind = TokenKind.number ↔ specNumberAmended t.text = true) := by
  rcases tokenizeGo_kinds _ _ _ t ht with h | h
  · exact absurd h hp
  · rw [h, ← is_numeric_eq_specNumberAmended]
    unfold classify_word
    by_cases hn : is_numeric t.text = true
    · simp [hn]
    · simp only [Bool.not_eq_true] at hn
      simp only [hn, Bool.false_eq_true, if_false]
      constructor
      · intro hcontra
        by_cases hd : is_likely_defined_term t.text = true <;> simp [hd] at hcontra
      · intro hcontra
        simp at hcontra

/-- **C8 witness** — the amended rule evaluated at the tokenizer output for
the concrete input `"21st"`. -/
theorem tokenize_number_iff_code_rule_witness :
    ({ text := "21st", kind := TokenKind.number, normalized := "21st",
       offset := 0 } : Token) ∈ tokenize "21st" ∧
    (TokenKind.number = TokenKind.number ↔ specNumberAmended "21st" = true) :=
  ⟨by decide, tokenize_number_iff_code_rule "21st"
    { text := "21st", kind := TokenKind.number, normalized := "21st", offset := 0 }
    (by decide) (by decide)⟩

theorem mem_enum_spec {l : List Block} {e : Nat × Block} (h : e ∈ l.enum) :
    e.1 < l.length ∧ l.getD e.1 defaultBlock = e.2 := by
  rw [List.mem_enum_iff_getElem?] at h
  have hlt : e.1 < l.length := by
    by_contra hge
    rw [List.getElem?_eq_none (Nat.le_of_not_lt hge)] at h
    exact Option.noConfusion h
  refine ⟨hlt, ?_⟩
  rw [List.getD_eq_getElem _ _ hlt]
  rw [List.getElem?_eq_getElem hlt] at h
  exact (Option.some_injective _ h)

theorem right_by_key_spec (key : Block → String) (right : List Block)
    (allowed : Nat → Bool) (k : String) (ri : Nat)
    (h : right_by_key key right allowed k = some ri) :
    ri < right.length ∧ allowed ri = true ∧
      key (right.getD ri defaultBlock) = k := by
  unfold right_by_key at h
  suffices haux : ∀ (l : List (Nat × Block)) (acc : Option Nat),
      (l.foldl (fun acc e => if allowed e.1 && (key e.2 == k) then some e.1 else acc) acc)
        = some ri →
      acc = some ri ∨ ∃ e ∈ l, e.1 = ri ∧ allowed e.1 = true ∧ key e.2 = k by
    rcases haux right.enum none h with hacc | ⟨e, he, h1, h2, h3⟩
    · exact Option.noConfusion hacc
    · obtain ⟨hlt, hget⟩ := mem_enum_spec he
      subst h1
      exact ⟨hlt, h2, by rw [hget]; exact h3⟩
  intro l
  induction l with
  | nil => intro acc hacc; exact Or.inl hacc
  | cons e l ih =>
    intro acc hacc
    rcases ih _ hacc with hacc2 | ⟨e2, he2, rest⟩
    · simp only [] at hacc2
      by_cases hcond : (allowed e.1 && (key e.2 == k)) = true
      · rw [if_pos hcond] at hacc2
        have hsplit : allowed e.1 = true ∧ key e.2 = k := by simpa using hcond
        refine Or.inr ⟨e, List.mem_cons_self _ _, ?_, hsplit.1, hsplit.2⟩
        exact Option.some_injective _ hacc2
      · rw [if_neg hcond] at hacc2
        exact Or.inl hacc2
    · exact Or.inr ⟨e2, List.mem_cons_of_mem _ he2, rest⟩

theorem addPair_inv {n m : Nat} {st : AlignState} {li ri : Nat} {sim : Rat}
    {mv : Bool} (hst : AlignInv n m st) (hli : li ∉ st.leftMatched)
    (hri : ri ∉ st.rightMatched) (hln : li < n) (hrm : ri < m) :
    AlignInv n m (addPair st li ri sim mv) := by
  obtain ⟨hndl, hndr, hmem, hrmem⟩ := hst
  have hlfresh : li ∉ st.pairs.map (fun p => p.1) := by
    intro hmem2
    obtain ⟨p, hp, hpe⟩ := List.mem_map.mp hmem2
    exact hli (hpe ▸ (hmem p hp).2.2.1)
  have hrfresh : ri ∉ st.pairs.map (fun p => p.2.1) := by
    intro hmem2
    obtain ⟨p, hp, hpe⟩ := List.mem_map.mp hmem2
    exact hri (hpe ▸ (hmem p hp).2.2.2)
  refine ⟨?_, ?_, ?_, ?_⟩
  · rw [show (addPair st li ri sim mv).pairs = st.pairs ++ [(li, ri, sim, mv)] from rfl,
      List.map_append]
    refine hndl.append (List.nodup_singleton _) ?_
    intro a ha hb
    simp only [List.map_cons, List.map_nil, List.mem_singleton] at hb
    subst hb
    exact hlfresh ha
  · rw [show (addPair st li ri sim mv).pairs = st.pairs ++ [(li, ri, sim, mv)] from rfl,
      List.map_append]
    refine hndr.append (List.nodup_singleton _) ?_
    intro a ha hb
    simp only [List.map_cons, List.map_nil, List.mem_singleton] at hb
    subst hb
    exact hrfresh ha
  · intro p hp
    simp only [addPair, List.mem_append, List.mem_singleton] at hp
    rcases hp with hp | hp
    · obtain ⟨h1, h2, h3, h4⟩ := hmem p hp
      exact ⟨h1, h2, by simp [addPair, h3], by simp [addPair, h4]⟩
    · subst hp
      simp [addPair, hln, hrm]
  · intro r hr
    simp only [addPair, List.mem_append, List.mem_singleton] at hr
    rcases hr with hr | hr
    · obtain ⟨p, hp, hpe⟩ := hrmem r hr
      exact ⟨p, by simp [addPair, hp], hpe⟩
    · exact ⟨(li, ri, sim, mv), by simp [addPair], hr.symm⟩

theorem pass1Step_leftMatched {right : List Block} {st : AlignState}
    {e : Nat × Block} {x : Nat} (h : x ∈ (pass1Step right st e).leftMatched) :
    x ∈ st.leftMatched ∨ x = e.1 := by
  unfold pass1Step at h
  rcases hlk : right_by_key (fun b => b.structural_path) right (fun _ => true)
      e.2.structural_path with _ | ri
  · rw [hlk] at h; exact Or.inl h
  · simp only [hlk] at h
    by_cases hri : ri ∈ st.rightMatched
    · rw [if_pos hri] at h; exact Or.inl h
    · rw [if_neg hri] at h
      simpa [addPair] using h

theorem pass1Step_inv {right : List Block} {n m : Nat} {st : AlignState}
    {e : Nat × Block} (hm : m = right.length) (hst : AlignInv n m st)
    (hlt : e.1 < n) (hfresh : e.1 ∉ st.leftMatched) :
    AlignInv n m (pass1Step right st e) := by
  unfold pass1Step
  rcases hlk : right_by_key (fun b => b.structural_path) right (fun _ => true)
      e.2.structural_path with _ | ri
  · simp only [hlk]; exact hst
  · simp only [hlk]
    by_cases hri : ri ∈ st.rightMatched
    · rw [if_pos hri]; exact hst
    · rw [if_neg hri]
      exact addPair_inv hst hfresh hri hlt
        (hm ▸ (right_by_key_spec _ _ _ _ _ hlk).1)

theorem pass1_fold_inv {right : List Block} {n m : Nat} (hm : m = right.length) :
    ∀ (entries : List (Nat × Block)) (st : AlignState),
      AlignInv n m st →
      (∀ e ∈ entries, e.1 < n ∧ e.1 ∉ st.leftMatched) →
      (entries.map Prod.fst).Nodup →
      AlignInv n m (entries.foldl (pass1Step right) st) := by
  intro entries
  induction entries with
  | nil => intro st hst _ _; exact hst
  | cons e rest ih =>
    intro st hst hcond hnd
    simp only [List.foldl_cons]
    obtain ⟨hlt, hfresh⟩ := hcond e (List.mem_cons_self _ _)
    refine ih _ (pass1Step_inv hm hst hlt hfresh) ?_ ?_
    · intro e' he'
      obtain ⟨hlt', hfresh'⟩ := hcond e' (List.mem_cons_of_mem _ he')
      refine ⟨hlt', fun hmem => ?_⟩
      rcases pass1Step_leftMatched hmem with h | h
      · exact hfresh' h
      · simp only [List.map_cons, List.nodup_cons] at hnd
        exact hnd.1 (h ▸ List.mem_map_of_mem Prod.fst he')
    · simp only [List.map_cons, List.nodup_cons] at hnd
      exact hnd.2

theorem pass1_inv (left right : List Block) :
    AlignInv left.length right.length (pass1 left right) := by
  unfold pass1
  refine pass1_fold_inv rfl left.enum _ ?_ ?_ ?_
  · refine ⟨List.nodup_nil, List.nodup_nil, ?_, ?_⟩
    · intro p hp; exact absurd hp (List.not_mem_nil p)
    · intro r hr; exact absurd hr (List.not_mem_nil r)
  · intro e he
    exact ⟨(mem_enum_spec he).1, List.not_mem_nil _⟩
  · rw [List.enum_map_fst]
    exact List.nodup_range _

theorem pass2Step_leftMatched {right : List Block} {st0 st : AlignState}
    {e : Nat × Block} {x : Nat}
    (h : x ∈ (pass2Step right st0 st e).leftMatched) :
    x ∈ st.leftMatched ∨ x = e.1 := by
  unfold pass2Step at h
  by_cases hin : e.1 ∈ st.leftMatched
  · rw [if_pos hin] at h; exact Or.inl h
  · rw [if_neg hin] at h
    rcases hlk : right_by_key (fun b => b.anchor_signature) right
        (fun i => decide (i ∉ st0.rightMatched)) e.2.anchor_signature with _ | ri
    · rw [hlk] at h; exact Or.inl h
    · simp only [hlk] at h
      by_cases hri : ri ∈ st.rightMatched
      · rw [if_pos hri] at h; exact Or.inl h
      · rw [if_neg hri] at h
        simpa [addPair] using h

theorem pass2Step_inv {right : List Block} {n m : Nat} {st0 st : AlignState}
    {e : Nat × Block} (hm : m = right.length) (hst : AlignInv n m st)
    (hlt : e.1 < n) : AlignInv n m (pass2Step right st0 st e) := by
  unfold pass2Step
  by_cases hin : e.1 ∈ st.leftMatched
  · rw [if_pos hin]; exact hst
  · rw [if_neg hin]
    rcases hlk : right_by_key (fun b => b.anchor_signature) right
        (fun i => decide (i ∉ st0.rightMatched)) e.2.anchor_signature with _ | ri
    · exact hst
    · simp only []
      by_cases hri : ri ∈ st.rightMatched
      · rw [if_pos hri]; exact hst
      · rw [if_neg hri]
        exact addPair_inv hst hin hri hlt
          (hm ▸ (right_by_key_spec _ _ _ _ _ hlk).1)

theorem pass2_fold_inv {right : List Block} {n m : Nat} {st0 : AlignState}
    (hm : m = right.length) :
    ∀ (entries : List (Nat × Block)) (st : AlignState),
      AlignInv n m st →
      (∀ e ∈ entries, e.1 < n) →
      AlignInv n m (entries.foldl (pass2Step right st0) st) := by
  intro entries
  induction entries with
  | nil => intro st hst _; exact hst
  | cons e rest ih =>
    intro st hst hcond
    simp only [List.foldl_cons]
    exact ih _ (pass2Step_inv hm hst (hcond e (List.mem_cons_self _ _)))
      (fun e' he' => hcond e' (List.mem_cons_of_mem _ he'))

theorem pass2_inv (left right : List Block) {st0 : AlignState}
    (hst0 : AlignInv left.length right.length st0) :
    AlignInv left.length right.length (pass2 left right st0) := by
  unfold pass2
  exact pass2_fold_inv rfl left.enum st0 hst0 (fun e he => (mem_enum_spec he).1)

theorem pass3Candidates_spec {left right : List Block} {st0 : AlignState} :
    ∀ c ∈ pass3Candidates left right st0,
      c.1 < left.length ∧ c.2.1 < right.length ∧
        c.1 ∉ st0.leftMatched ∧ c.2.1 ∉ st0.rightMatched := by
  intro c hc
  simp only [pass3Candidates, List.mem_flatMap, List.mem_filterMap,
    List.mem_filter, List.mem_range, decide_eq_true_eq] at hc
  obtain ⟨li, ⟨hli1, hli2⟩, ri, ⟨hri1, hri2⟩, hsome⟩ := hc
  split at hsome
  · obtain rfl := Option.some_injective _ hsome
    exact ⟨hli1, hri1, hli2, hri2⟩
  · exact Option.noConfusion hsome

theorem mem_insertCandidate {x y : Nat × Nat × Rat} :
    ∀ {l : List (Nat × Nat × Rat)}, x ∈ insertCandidate y l → x = y ∨ x ∈ l := by
  intro l
  induction l with
  | nil => intro h; simpa [insertCandidate] using h
  | cons z zs ih =>
    intro h
    unfold insertCandidate at h
    by_cases hc : z.2.2 ≥ y.2.2
    · rw [if_pos hc] at h
      rcases List.mem_cons.mp h with rfl | h2
      · exact Or.inr (List.mem_cons_self _ _)
      · rcases ih h2 with h3 | h3
        · exact Or.inl h3
        · exact Or.inr (List.mem_cons_of_mem _ h3)
    · rw [if_neg hc] at h
      rcases List.mem_cons.mp h with rfl | h2
      · exact Or.inl rfl
      · exact Or.inr h2

theorem mem_sortCandidates {x : Nat × Nat × Rat} {l : List (Nat × Nat × Rat)}
    (h : x ∈ sortCandidates l) : x ∈ l := by
  unfold sortCandidates at h
  suffices haux : ∀ (l : List (Nat × Nat × Rat)) (acc : List (Nat × Nat × Rat)),
      x ∈ l.foldl (fun acc x => insertCandidate x acc) acc → x ∈ acc ∨ x ∈ l by
    rcases haux l [] h with h2 | h2
    · exact absurd h2 (List.not_mem_nil x)
    · exact h2
  intro l
  induction l with
  | nil => intro acc h2; exact Or.inl h2
  | cons z zs ih =>
    intro acc h2
    simp only [List.foldl_cons] at h2
    rcases ih _ h2 with h3 | h3
    · rcases mem_insertCandidate h3 with h4 | h4
      · exact Or.inr (h4 ▸ List.mem_cons_self _ _)
      · exact Or.inl h4
    · exact Or.inr (List.mem_cons_of_mem _ h3)

theorem pass3_fold_inv {left right : List Block} {n m : Nat} (st0 : AlignState) :
    ∀ (cands : List (Nat × Nat × Rat)) (acc : AlignState × List Nat × List Nat),
      AlignInv n m acc.1 →
      (∀ x ∈ acc.1.leftMatched, x ∈ st0.leftMatched ∨ x ∈ acc.2.1) →
      (∀ x ∈ acc.1.rightMatched, x ∈ st0.rightMatched ∨ x ∈ acc.2.2) →
      (∀ c ∈ cands, c.1 < n ∧ c.2.1 < m ∧
        c.1 ∉ st0.leftMatched ∧ c.2.1 ∉ st0.rightMatched) →
      AlignInv n m ((cands.foldl (pass3Step left right) acc).1) := by
  intro cands
  induction cands with
  | nil => intro acc h1 _ _ _; exact h1
  | cons c rest ih =>
    intro acc h1 h2 h3 hcond
    simp only [List.foldl_cons]
    obtain ⟨hc1, hc2, hc3, hc4⟩ := hcond c (List.mem_cons_self _ _)
    have hrest := fun c' hc' => hcond c' (List.mem_cons_of_mem _ hc')
    by_cases hused : c.1 ∈ acc.2.1 ∨ c.2.1 ∈ acc.2.2
    · rw [show pass3Step left right acc c = acc from by
        unfold pass3Step; rw [if_pos hused]]
      exact ih acc h1 h2 h3 hrest
    · push_neg at hused
      have hfl : c.1 ∉ acc.1.leftMatched := fun hmem =>
        (h2 c.1 hmem).elim hc3 hused.1
      have hfr : c.2.1 ∉ acc.1.rightMatched := fun hmem =>
        (h3 c.2.1 hmem).elim hc4 hused.2
      have hstep : pass3Step left right acc c =
          (addPair acc.1 c.1 c.2.1 c.2.2
              (decide ((left.getD c.1 defaultBlock).structural_path ≠
                  (right.getD c.2.1 defaultBlock).structural_path)
                && decide (c.2.2 ≥ MOVE_THRESHOLD)),
            acc.2.1 ++ [c.1], acc.2.2 ++ [c.2.1]) := by
        unfold pass3Step
        rw [if_neg (by push_neg; exact hused)]
      rw [hstep]
      refine ih _ (addPair_inv h1 hfl hfr hc1 hc2) ?_ ?_ hrest
      · intro x hx
        simp only [addPair, List.mem_append, List.mem_singleton] at hx ⊢
        rcases hx with hx | hx
        · rcases h2 x hx with h | h
          · exact Or.inl h
          · exact Or.inr (Or.inl h)
        · exact Or.inr (Or.inr hx)
      · intro x hx
        simp only [addPair, List.mem_append, List.mem_singleton] at hx ⊢
        rcases hx with hx | hx
        · rcases h3 x hx with h | h
          · exact Or.inl h
          · exact Or.inr (Or.inl h)
        · exact Or.inr (Or.inr hx)

theorem pass3_inv (left right : List Block) {st0 : AlignState}
    (hst0 : AlignInv left.length right.length st0) :
    AlignInv left.length right.length (pass3 left right st0) := by
  unfold pass3
  refine pass3_fold_inv st0 _ (st0, [], []) hst0 ?_ ?_ ?_
  · intro x hx; exact Or.inl hx
  · intro x hx; exact Or.inl hx
  · intro c hc
    exact pass3Candidates_spec c (mem_sortCandidates hc)

theorem lcsBack_spec (dp : Nat → Nat → Nat) (eq : Nat → Nat → Bool) :
    ∀ (fuel i j : Nat),
      (∀ p ∈ lcsBack dp eq fuel i j, p.1 < i ∧ p.2 < j) ∧
      List.Pairwise (fun p q => p.1 < q.1 ∧ p.2 < q.2) (lcsBack dp eq fuel i j) := by
  intro fuel
  induction fuel with
  | zero =>
    intro i j
    exact ⟨fun p hp => absurd hp (List.not_mem_nil p), List.Pairwise.nil⟩
  | succ fuel ih =>
    intro i j
    match i, j with
    | 0, j =>
      exact ⟨fun p hp => absurd hp (List.not_mem_nil p), List.Pairwise.nil⟩
    | i + 1, 0 =>
      exact ⟨fun p hp => absurd hp (List.not_mem_nil p), List.Pairwise.nil⟩
    | i + 1, j + 1 =>
      simp only [lcsBack]
      by_cases heq : eq i j = true
      · rw [if_pos heq]
        obtain ⟨ihb, ihp⟩ := ih i j
        constructor
        · intro p hp
          rcases List.mem_append.mp hp with hp | hp
          · obtain ⟨h1, h2⟩ := ihb p hp
            exact ⟨Nat.lt_succ_of_lt h1, Nat.lt_succ_of_lt h2⟩
          · obtain rfl := List.mem_singleton.mp hp
            exact ⟨Nat.lt_succ_self _, Nat.lt_succ_self _⟩
        · rw [List.pairwise_append]
          refine ⟨ihp, List.pairwise_singleton _ _, ?_⟩
          intro p hp q hq
          obtain rfl := List.mem_singleton.mp hq
          exact ihb p hp
      · rw [if_neg heq]
        by_cases hge : dp i (j + 1) ≥ dp (i + 1) j
        · rw [if_pos hge]
          obtain ⟨ihb, ihp⟩ := ih i (j + 1)
          exact ⟨fun p hp => ⟨Nat.lt_succ_of_lt (ihb p hp).1, (ihb p hp).2⟩, ihp⟩
        · rw [if_neg hge]
          obtain ⟨ihb, ihp⟩ := ih (i + 1) j
          exact ⟨fun p hp => ⟨(ihb p hp).1, Nat.lt_succ_of_lt (ihb p hp).2⟩, ihp⟩

theorem filtered_range_sorted (k : Nat) (pred : Nat → Bool) :
    List.Pairwise (· < ·) ((List.range k).filter pred) :=
  (List.pairwise_lt_range k).filter pred

theorem getD_strictMono {l : List Nat} (hl : List.Pairwise (· < ·) l)
    {a b : Nat} (hab : a < b) (hb : b < l.length) :
    l.getD a 0 < l.getD b 0 := by
  have ha : a < l.length := Nat.lt_trans hab hb
  rw [List.getD_eq_getElem _ _ ha, List.getD_eq_getElem _ _ hb]
  exact List.pairwise_iff_getElem.mp hl a b ha hb hab

theorem pass4LcsPairs_spec (left right : List Block) (st0 : AlignState) :
    (∀ p ∈ pass4LcsPairs left right st0,
      p.1 < left.length ∧ p.2 < right.length ∧
        p.1 ∉ st0.leftMatched ∧ p.2 ∉ st0.rightMatched) ∧
    ((pass4LcsPairs left right st0).map Prod.fst).Nodup ∧
    ((pass4LcsPairs left right st0).map Prod.snd).Nodup := by
  unfold pass4LcsPairs
  set remL := (List.range left.length).filter
    (fun i => decide (i ∉ st0.leftMatched)) with hremL
  set remR := (List.range right.length).filter
    (fun i => decide (i ∉ st0.rightMatched)) with hremR
  set eqText := fun a b =>
    (left.getD (remL.getD a 0) defaultBlock).canonical_text
      == (right.getD (remR.getD b 0) defaultBlock).canonical_text with heqText
  unfold lcsPairs
  obtain ⟨hbounds, hpw⟩ := lcsBack_spec (lcsDp remL.length remR.length eqText)
    eqText (remL.length + remR.length) remL.length remR.length
  have hLmem : ∀ a < remL.length, remL.getD a 0 ∈ remL := by
    intro a ha
    rw [List.getD_eq_getElem _ _ ha]
    exact List.getElem_mem ha
  have hRmem : ∀ a < remR.length, remR.getD a 0 ∈ remR := by
    intro a ha
    rw [List.getD_eq_getElem _ _ ha]
    exact List.getElem_mem ha
  have hLprop : ∀ x ∈ remL, x < left.length ∧ x ∉ st0.leftMatched := by
    intro x hx
    rw [hremL, List.mem_filter, List.mem_range] at hx
    exact ⟨hx.1, by simpa using hx.2⟩
  have hRprop : ∀ x ∈ remR, x < right.length ∧ x ∉ st0.rightMatched := by
    intro x hx
    rw [hremR, List.mem_filter, List.mem_range] at hx
    exact ⟨hx.1, by simpa using hx.2⟩
  refine ⟨?_, ?_, ?_⟩
  · intro p hp
    obtain ⟨q, hq, hqe⟩ := List.mem_map.mp hp
    obtain ⟨hq1, hq2⟩ := hbounds q hq
    obtain ⟨hA, hB⟩ := hLprop _ (hLmem q.1 hq1)
    obtain ⟨hC, hD⟩ := hRprop _ (hRmem q.2 hq2)
    rw [← hqe]
    exact ⟨hA, hC, hB, hD⟩
  · rw [List.map_map]
    have : List.Pairwise (· < ·)
        ((lcsBack (lcsDp remL.length remR.length eqText) eqText
            (remL.length + remR.length) remL.length remR.length).map
          (Prod.fst ∘ fun p => (remL.getD p.1 0, remR.getD p.2 0))) := by
      rw [List.pairwise_map]
      refine (hpw.imp_of_mem ?_)
      intro p q hp hq hpq
      exact getD_strictMono (filtered_range_sorted _ _) hpq.1 (hbounds q hq).1
    exact this.imp Nat.ne_of_lt
  · rw [List.map_map]
    have : List.Pairwise (· < ·)
        ((lcsBack (lcsDp remL.length remR.length eqText) eqText
            (remL.length + remR.length) remL.length remR.length).map
          (Prod.snd ∘ fun p => (remL.getD p.1 0, remR.getD p.2 0))) := by
      rw [List.pairwise_map]
      refine (hpw.imp_of_mem ?_)
      intro p q hp hq hpq
      exact getD_strictMono (filtered_range_sorted _ _) hpq.2 (hbounds q hq).2
    exact this.imp Nat.ne_of_lt

theorem pass4_fold_inv {left right : List Block} {n m : Nat} :
    ∀ (ps : List (Nat × Nat)) (st : AlignState),
      AlignInv n m st →
      (∀ p ∈ ps, p.1 < n ∧ p.2 < m ∧
        p.1 ∉ st.leftMatched ∧ p.2 ∉ st.rightMatched) →
      (ps.map Prod.fst).Nodup →
      (ps.map Prod.snd).Nodup →
      AlignInv n m (ps.foldl (pass4Step left right) st) := by
  intro ps
  induction ps with
  | nil => intro st hst _ _ _; exact hst
  | cons p rest ih =>
    intro st hst hcond hndf hnds
    simp only [List.foldl_cons]
    obtain ⟨hp1, hp2, hp3, hp4⟩ := hcond p (List.mem_cons_self _ _)
    simp only [List.map_cons, List.nodup_cons] at hndf hnds
    have hnext : ∀ st' : AlignState,
        AlignInv n m st' →
        (st'.leftMatched = st.leftMatched ∨
          st'.leftMatched = st.leftMatched ++ [p.1]) →
        (st'.rightMatched = st.rightMatched ∨
          st'.rightMatched = st.rightMatched ++ [p.2]) →
        AlignInv n m (rest.foldl (pass4Step left right) st') := by
      intro st' hst' hL hR
      refine ih st' hst' ?_ hndf.2 hnds.2
      intro q hq
      obtain ⟨hq1, hq2, hq3, hq4⟩ := hcond q (List.mem_cons_of_mem _ hq)
      refine ⟨hq1, hq2, ?_, ?_⟩
      · rcases hL with h | h <;> rw [h]
        · exact hq3
        · intro hmem
          rcases List.mem_append.mp hmem with h2 | h2
          · exact hq3 h2
          · have he := List.mem_singleton.mp h2
            exact hndf.1 (he ▸ List.mem_map_of_mem Prod.fst hq)
      · rcases hR with h | h <;> rw [h]
        · exact hq4
        · intro hmem
          rcases List.mem_append.mp hmem with h2 | h2
          · exact hq4 h2
          · have he := List.mem_singleton.mp h2
            exact hnds.1 (he ▸ List.mem_map_of_mem Prod.snd hq)
    unfold pass4Step
    by_cases hsim : block_similarity (left.getD p.1 defaultBlock)
        (right.getD p.2 defaultBlock) ≥ SIMILARITY_THRESHOLD
    · rw [if_pos hsim]
      exact hnext _ (addPair_inv hst hp3 hp4 hp1 hp2) (Or.inr rfl) (Or.inr rfl)
    · rw [if_neg hsim]
      exact hnext _ hst (Or.inl rfl) (Or.inl rfl)

theorem pass4_inv (left right : List Block) {st0 : AlignState}
    (hst0 : AlignInv left.length right.length st0) :
    AlignInv left.length right.length (pass4 left right st0) := by
  unfold pass4
  obtain ⟨hmem, hndf, hnds⟩ := pass4LcsPairs_spec left right st0
  exact pass4_fold_inv _ st0 hst0 (fun p hp => hmem p hp) hndf hnds

theorem st4_inv (left right : List Block) :
    AlignInv left.length right.length
      (pass4 left right (pass3 left right (pass2 left right (pass1 left right)))) :=
  pass4_inv left right (pass3_inv left right (pass2_inv left right (pass1_inv left right)))

theorem find_unique {α : Type} (pfn : α → Bool) :
    ∀ {l : List α} {p : α}, p ∈ l → pfn p = true →
      (∀ q ∈ l, pfn q = true → q = p) → l.find? pfn = some p := by
  intro l
  induction l with
  | nil => intro p hp; exact absurd hp (List.not_mem_nil p)
  | cons a l ih =>
    intro p hp hpf huniq
    by_cases ha : pfn a = true
    · rw [List.find?_cons_of_pos _ ha]
      rw [huniq a (List.mem_cons_self _ _) ha]
    · rw [List.find?_cons_of_neg _ ha]
      rcases List.mem_cons.mp hp with rfl | hp2
      · exact absurd hpf ha
      · exact ih hp2 hpf (fun q hq => huniq q (List.mem_cons_of_mem _ hq))

theorem pair_lookup_mem {pairs : List (Nat × Nat × Rat × Bool)} {li : Nat}
    {v : Nat × Rat × Bool} (h : pair_lookup pairs li = some v) :
    (li, v) ∈ pairs := by
  unfold pair_lookup at h
  obtain ⟨q, hq, hqe⟩ := Option.map_eq_some'.mp h
  have hmem := List.mem_reverse.mp (List.mem_of_find?_eq_some hq)
  have hkey : q.1 = li := by simpa using List.find?_some hq
  have : q = (li, v) := by
    rw [Prod.ext_iff]
    exact ⟨hkey, hqe⟩
  exact this ▸ hmem

theorem pair_lookup_of_mem {pairs : List (Nat × Nat × Rat × Bool)}
    (hnd : (pairs.map (fun p => p.1)).Nodup) {p : Nat × Nat × Rat × Bool}
    (hp : p ∈ pairs) : pair_lookup pairs p.1 = some p.2 := by
  unfold pair_lookup
  rw [find_unique _ (List.mem_reverse.mpr hp) (by simp)
    (fun q hq hqf => ?_)]
  · rfl
  · have hq2 := List.mem_reverse.mp hq
    have hkey : q.1 = p.1 := by simpa using hqf
    exact List.inj_on_of_nodup_map hnd hq2 hp hkey

theorem emitIns_fold_spec (matchedR : List Nat) :
    ∀ (ris : List Nat), ris.Nodup →
    ∀ (acc : List Nat × List BlockAlignment),
      (∀ x, x ∈ (ris.foldl (fun acc ri =>
          if ri ∉ acc.1 ∧ ri ∉ matchedR then
            (acc.1 ++ [ri], acc.2 ++ [BlockAlignment.insertedRight ri])
          else acc) acc).1 ↔
        x ∈ acc.1 ∨ (x ∈ ris ∧ x ∉ matchedR ∧ x ∉ acc.1)) ∧
      (∀ r, ((ris.foldl (fun acc ri =>
          if ri ∉ acc.1 ∧ ri ∉ matchedR then
            (acc.1 ++ [ri], acc.2 ++ [BlockAlignment.insertedRight ri])
          else acc) acc).2.countP (rightRecOf r)) =
        acc.2.countP (rightRecOf r) +
          (if r ∈ ris ∧ r ∉ matchedR ∧ r ∉ acc.1 then 1 else 0)) ∧
      (∀ l, ((ris.foldl (fun acc ri =>
          if ri ∉ acc.1 ∧ ri ∉ matchedR then
            (acc.1 ++ [ri], acc.2 ++ [BlockAlignment.insertedRight ri])
          else acc) acc).2.countP (leftRecOf l)) =
        acc.2.countP (leftRecOf l)) := by
  intro ris
  induction ris with
  | nil =>
    intro _ acc
    refine ⟨fun x => ?_, fun r => ?_, fun l => ?_⟩ <;>
      simp [List.not_mem_nil]
  | cons y ris ih =>
    intro hnd acc
    simp only [List.nodup_cons] at hnd
    simp only [List.foldl_cons]
    by_cases hcond : y ∉ acc.1 ∧ y ∉ matchedR
    · rw [if_pos hcond]
      obtain ⟨ih1, ih2, ih3⟩ := ih hnd.2 (acc.1 ++ [y],
        acc.2 ++ [BlockAlignment.insertedRight y])
      refine ⟨fun x => ?_, fun r => ?_, fun l => ?_⟩
      · rw [ih1 x]
        by_cases hxy : x = y
        · subst hxy
          constructor
          · intro _
            exact Or.inr ⟨List.mem_cons_self _ _, hcond.2, hcond.1⟩
          · intro _
            exact Or.inl (List.mem_append.mpr (Or.inr (List.mem_singleton.mpr rfl)))
        · constructor
          · rintro (h | ⟨h1, h2, h3⟩)
            · rcases List.mem_append.mp h with h4 | h4
              · exact Or.inl h4
              · exact absurd (List.mem_singleton.mp h4) hxy
            · exact Or.inr ⟨List.mem_cons_of_mem _ h1, h2,
                fun hc => h3 (List.mem_append.mpr (Or.inl hc))⟩
          · rintro (h | ⟨h1, h2, h3⟩)
            · exact Or.inl (List.mem_append.mpr (Or.inl h))
            · have h1b : x ∈ ris := by
                rcases List.mem_cons.mp h1 with h5 | h5
                · exact absurd h5 hxy
                · exact h5
              refine Or.inr ⟨h1b, h2, fun hc => ?_⟩
              rcases List.mem_append.mp hc with h4 | h4
              · exact h3 h4
              · exact hxy (List.mem_singleton.mp h4)
      · rw [ih2 r]
        by_cases hry : r = y
        · subst hry
          have h1 : List.countP (rightRecOf r) [BlockAlignment.insertedRight r] = 1 := by
            simp [List.countP_cons, List.countP_nil, rightRecOf]
          have hnotin : ¬(r ∈ ris ∧ r ∉ matchedR ∧ r ∉ acc.1 ++ [r]) := fun h =>
            h.2.2 (List.mem_append.mpr (Or.inr (List.mem_singleton.mpr rfl)))
          have hyes : r ∈ r :: ris ∧ r ∉ matchedR ∧ r ∉ acc.1 :=
            ⟨List.mem_cons_self _ _, hcond.2, hcond.1⟩
          rw [List.countP_append, h1, if_neg hnotin, if_pos hyes]
        · have hfalse : List.countP (rightRecOf r)
              [BlockAlignment.insertedRight y] = 0 := by
            simp [List.countP_cons, List.countP_nil, rightRecOf, Ne.symm hry]
          have hc : (r ∈ ris ∧ r ∉ matchedR ∧ r ∉ acc.1 ++ [y]) ↔
              (r ∈ y :: ris ∧ r ∉ matchedR ∧ r ∉ acc.1) := by
            constructor
            · rintro ⟨h1, h2, h3⟩
              exact ⟨List.mem_cons_of_mem _ h1, h2,
                fun hc2 => h3 (List.mem_append.mpr (Or.inl hc2))⟩
            · rintro ⟨h1, h2, h3⟩
              refine ⟨(List.mem_cons.mp h1).resolve_left hry, h2, fun hc2 => ?_⟩
              rcases List.mem_append.mp hc2 with h4 | h4
              · exact h3 h4
              · exact hry (List.mem_singleton.mp h4)
          rw [List.countP_append, hfalse, if_congr hc rfl rfl]
          omega
      · rw [ih3 l]
        have hfalse : List.countP (leftRecOf l)
            [BlockAlignment.insertedRight y] = 0 := by
          simp [List.countP_cons, List.countP_nil, leftRecOf]
        rw [List.countP_append, hfalse]
        omega
    · rw [if_neg hcond]
      obtain ⟨ih1, ih2, ih3⟩ := ih hnd.2 acc
      push_neg at hcond
      refine ⟨fun x => ?_, fun r => ?_, fun l => ?_⟩
      · rw [ih1 x]
        constructor
        · rintro (h | ⟨h1, h2, h3⟩)
          · exact Or.inl h
          · exact Or.inr ⟨List.mem_cons_of_mem _ h1, h2, h3⟩
        · rintro (h | ⟨h1, h2, h3⟩)
          · exact Or.inl h
          · rcases List.mem_cons.mp h1 with h4 | h4
            · subst h4
              exact absurd (hcond h3) h2
            · exact Or.inr ⟨h4, h2, h3⟩
      · rw [ih2 r]
        by_cases hry : r = y
        · subst hry
          have hno : ∀ (A : Prop) (hA : Decidable A),
              ¬(A ∧ r ∉ matchedR ∧ r ∉ acc.1) :=
            fun A _ h => h.2.1 (hcond h.2.2)
          rw [if_neg (hno _ inferInstance), if_neg (hno _ inferInstance)]
        · by_cases hin : r ∈ ris ∧ r ∉ matchedR ∧ r ∉ acc.1
          · rw [if_pos hin, if_pos ⟨List.mem_cons_of_mem _ hin.1, hin.2⟩]
          · rw [if_neg hin, if_neg (fun h => hin
              ⟨(List.mem_cons.mp h.1).resolve_left hry, h.2⟩)]
      · exact ih3 l

theorem emitIns_spec (before_ri : Nat) (emitted matchedR : List Nat) :
    (∀ x, x ∈ (emit_insertions_before before_ri emitted matchedR).1 ↔
      x ∈ emitted ∨ (x < before_ri ∧ x ∉ matchedR ∧ x ∉ emitted)) ∧
    (∀ r, ((emit_insertions_before before_ri emitted matchedR).2.countP
        (rightRecOf r)) =
      (if r < before_ri ∧ r ∉ matchedR ∧ r ∉ emitted then 1 else 0)) ∧
    (∀ l, ((emit_insertions_before before_ri emitted matchedR).2.countP
        (leftRecOf l)) = 0) := by
  obtain ⟨h1, h2, h3⟩ := emitIns_fold_spec matchedR (List.range before_ri)
    (List.nodup_range _) (emitted, [])
  unfold emit_insertions_before
  refine ⟨fun x => ?_, fun r => ?_, fun l => ?_⟩
  · have := h1 x
    simpa [List.mem_range] using this
  · have := h2 r
    simpa [List.mem_range] using this
  · have := h3 l
    simpa using this

theorem alignFold_left_count (pairs : List (Nat × Nat × Rat × Bool))
    (matchedR : List Nat) (l : Nat) :
    ∀ (lis : List Nat) (acc : List Nat × List BlockAlignment),
      ((lis.foldl (alignEmitStep pairs matchedR) acc).2.countP (leftRecOf l)) =
        acc.2.countP (leftRecOf l) + lis.countP (fun li => li == l) := by
  intro lis
  induction lis with
  | nil => intro acc; simp
  | cons li rest ih =>
    intro acc
    simp only [List.foldl_cons]
    rw [ih]
    have hstep : ((alignEmitStep pairs matchedR acc li).2.countP (leftRecOf l)) =
        acc.2.countP (leftRecOf l) + (if li == l then 1 else 0) := by
      unfold alignEmitStep
      rcases hlk : pair_lookup pairs li with _ | v
      · simp only [List.countP_append, List.countP_cons, List.countP_nil,
          leftRecOf]
        omega
      · simp only []
        rw [List.countP_append, List.countP_append,
          (emitIns_spec v.1 acc.1 matchedR).2.2 l]
        have hrec : List.countP (leftRecOf l)
            [if v.2.2 then BlockAlignment.moved li v.1 v.2.1
             else BlockAlignment.matched li v.1 v.2.1] =
            (if li == l then 1 else 0) := by
          by_cases hmv : v.2.2 = true
          · simp [hmv, List.countP_cons, List.countP_nil, leftRecOf]
          · simp only [Bool.not_eq_true] at hmv
            simp [hmv, List.countP_cons, List.countP_nil, leftRecOf]
        rw [hrec]
        omega
    rw [hstep, List.countP_cons]
    omega

theorem alignFold_right_spec (pairs : List (Nat × Nat × Rat × Bool))
    (matchedR : List Nat)
    (hndr : (pairs.map (fun p => p.2.1)).Nodup)
    (hpm : ∀ p ∈ pairs, p.2.1 ∈ matchedR) :
    ∀ (lis : List Nat), lis.Nodup →
    ∀ (emitted : List Nat) (out : List BlockAlignment),
      (∀ r, out.countP (rightRecOf r) = if r ∈ emitted then 1 else 0) →
      (∀ li ∈ lis, ∀ v, pair_lookup pairs li = some v → v.1 ∉ emitted) →
      (∀ rr ∈ matchedR, rr ∈ emitted ∨
        ∃ li ∈ lis, ∃ v, pair_lookup pairs li = some v ∧ v.1 = rr) →
      (∀ r, (((lis.foldl (alignEmitStep pairs matchedR) (emitted, out)).2).countP
          (rightRecOf r)) =
        if r ∈ (lis.foldl (alignEmitStep pairs matchedR) (emitted, out)).1
        then 1 else 0) ∧
      (∀ rr ∈ matchedR,
        rr ∈ (lis.foldl (alignEmitStep pairs matchedR) (emitted, out)).1) := by
  intro lis
  induction lis with
  | nil =>
    intro _ emitted out hcount hrem hmt
    refine ⟨fun r => hcount r, fun rr hrr => ?_⟩
    rcases hmt rr hrr with h | ⟨li, hli, _⟩
    · exact h
    · exact absurd hli (List.not_mem_nil li)
  | cons li rest ih =>
    intro hnd emitted out hcount hrem hmt
    obtain ⟨hlinotin, hndrest⟩ := List.nodup_cons.mp hnd
    simp only [List.foldl_cons]
    rcases hlk : pair_lookup pairs li with _ | v
    · have hstep : alignEmitStep pairs matchedR (emitted, out) li =
          (emitted, out ++ [BlockAlignment.deletedLeft li]) := by
        unfold alignEmitStep; rw [hlk]
      simp only [hstep]
      apply ih hndrest
      · intro r
        rw [List.countP_append]
        have hz : List.countP (rightRecOf r)
            [BlockAlignment.deletedLeft li] = 0 := by
          simp [List.countP_cons, rightRecOf]
        rw [hz, Nat.add_zero, hcount r]
      · intro li' hli' v hv
        exact hrem li' (List.mem_cons_of_mem _ hli') v hv
      · intro rr hrr
        rcases hmt rr hrr with h | ⟨li0, hli0, v0, hv0, hv0e⟩
        · exact Or.inl h
        · rcases List.mem_cons.mp hli0 with he | hm
          · subst he; rw [hlk] at hv0; exact absurd hv0 (by simp)
          · exact Or.inr ⟨li0, hm, v0, hv0, hv0e⟩
    · have hvpair : (li, v) ∈ pairs := pair_lookup_mem hlk
      have hvmr : v.1 ∈ matchedR := hpm _ hvpair
      have hvem : v.1 ∉ emitted := hrem li (List.mem_cons_self _ _) v hlk
      obtain ⟨e1, e2, _⟩ := emitIns_spec v.1 emitted matchedR
      have hstep : alignEmitStep pairs matchedR (emitted, out) li =
          ((emit_insertions_before v.1 emitted matchedR).1 ++ [v.1],
           out ++ (emit_insertions_before v.1 emitted matchedR).2 ++
             [if v.2.2 then BlockAlignment.moved li v.1 v.2.1
              else BlockAlignment.matched li v.1 v.2.1]) := by
        unfold alignEmitStep; rw [hlk]
      simp only [hstep]
      have hmem1 : ∀ x,
          x ∈ (emit_insertions_before v.1 emitted matchedR).1 ++ [v.1] ↔
          x ∈ emitted ∨ (x < v.1 ∧ x ∉ matchedR ∧ x ∉ emitted) ∨ x = v.1 := by
        intro x
        rw [List.mem_append, List.mem_singleton, e1 x]
        tauto
      apply ih hndrest
      · intro r
        rw [List.countP_append, List.countP_append, hcount r, e2 r]
        have hrec : List.countP (rightRecOf r)
            [if v.2.2 then BlockAlignment.moved li v.1 v.2.1
             else BlockAlignment.matched li v.1 v.2.1] =
            if v.1 = r then 1 else 0 := by
          by_cases hmv : v.2.2 = true
          · simp [hmv, List.countP_cons, rightRecOf]
          · simp only [Bool.not_eq_true] at hmv
            simp [hmv, List.countP_cons, rightRecOf]
        rw [hrec]
        by_cases hreq : r = v.1
        · subst hreq
          have hin : v.1 ∈ (emit_insertions_before v.1 emitted matchedR).1 ++
              [v.1] := (hmem1 v.1).mpr (Or.inr (Or.inr rfl))
          simp [hin, hvem, hvmr]
        · have hne : ¬ (v.1 = r) := fun h => hreq h.symm
          by_cases hrin : r ∈ emitted
          · have hin : r ∈ (emit_insertions_before v.1 emitted matchedR).1 ++
                [v.1] := (hmem1 r).mpr (Or.inl hrin)
            simp [hin, hrin, hne]
          · by_cases hnew : r < v.1 ∧ r ∉ matchedR ∧ r ∉ emitted
            · have hin : r ∈ (emit_insertions_before v.1 emitted matchedR).1 ++
                  [v.1] := (hmem1 r).mpr (Or.inr (Or.inl hnew))
              simp [hin, hrin, hnew, hne]
            · have hnin : r ∉ (emit_insertions_before v.1 emitted matchedR).1 ++
                  [v.1] := by
                rw [hmem1 r]
                push_neg
                refine ⟨hrin, fun h1 h2 => ?_, hreq⟩
                exact absurd ⟨h1, h2, hrin⟩ hnew
              simp only [hnin, if_false, hrin]
              simp [hne]
              intro h1
              by_contra h2
              exact hnew ⟨h1, h2, hrin⟩
      · intro li' hli' v' hv'
        have hv'pair : (li', v') ∈ pairs := pair_lookup_mem hv'
        have hv'mr : v'.1 ∈ matchedR := hpm _ hv'pair
        have hv'em : v'.1 ∉ emitted :=
          hrem li' (List.mem_cons_of_mem _ hli') v' hv'
        have hv'ne : v'.1 ≠ v.1 := by
          intro he
          have hkey : (fun (p : Nat × Nat × Rat × Bool) => p.2.1) (li', v') =
              (fun (p : Nat × Nat × Rat × Bool) => p.2.1) (li, v) := he
          have heq := List.inj_on_of_nodup_map hndr hv'pair hvpair hkey
          have : li' = li := congrArg Prod.fst heq
          exact hlinotin (this ▸ hli')
        rw [hmem1]
        push_neg
        refine ⟨hv'em, fun _ h2 => absurd hv'mr h2, hv'ne⟩
      · intro rr hrr
        rcases hmt rr hrr with h | ⟨li0, hli0, v0, hv0, hv0e⟩
        · exact Or.inl ((hmem1 rr).mpr (Or.inl h))
        · rcases List.mem_cons.mp hli0 with he | hm
          · subst he
            rw [hlk] at hv0
            have hv0v : v0 = v := (Option.some.inj hv0).symm
            subst hv0v
            exact Or.inl ((hmem1 rr).mpr (Or.inr (Or.inr hv0e.symm)))
          · exact Or.inr ⟨li0, hm, v0, hv0, hv0e⟩

theorem countP_beq_of_nodup {a : Nat} : ∀ {l : List Nat}, l.Nodup →
    l.countP (fun x => x == a) = if a ∈ l then 1 else 0 := by
  intro l
  induction l with
  | nil => simp
  | cons b t ih =>
    intro hnd
    obtain ⟨hb, ht⟩ := List.nodup_cons.mp hnd
    rw [List.countP_cons, ih ht]
    by_cases hba : b = a
    · subst hba
      simp [hb]
    · have hab : ¬ (a = b) := fun h => hba h.symm
      simp [hba, hab, List.mem_cons]

/-- **C7**: alignment is exhaustive — every left index occurs in exactly one
`Matched`/`Moved`/`DeletedLeft` record and every right index in exactly one
`Matched`/`Moved`/`InsertedRight` record of `align_blocks left right`. -/
theorem align_blocks_exhaustive (left right : List Block) :
    (∀ l, l < left.length →
      ((align_blocks left right).countP (leftRecOf l)) = 1) ∧
    (∀ r, r < right.length →
      ((align_blocks left right).countP (rightRecOf r)) = 1) := by
  obtain ⟨hndf, hndr, hmem, hrm⟩ := st4_inv left right
  set st4 := pass4 left right
    (pass3 left right (pass2 left right (pass1 left right))) with hst4
  set assembled := (List.range left.length).foldl
    (alignEmitStep st4.pairs st4.rightMatched)
    (([] : List Nat), ([] : List BlockAlignment)) with hasm
  set trailing := (((List.range right.length).filter
    (fun ri => decide (ri ∉ assembled.1 ∧ ri ∉ st4.rightMatched))).map
      BlockAlignment.insertedRight) with htr
  have hout : align_blocks left right = assembled.2 ++ trailing := rfl
  have hinit3 : ∀ rr ∈ st4.rightMatched, rr ∈ ([] : List Nat) ∨
      ∃ li ∈ List.range left.length, ∃ v,
        pair_lookup st4.pairs li = some v ∧ v.1 = rr := by
    intro rr hrr
    obtain ⟨p, hp, hpe⟩ := hrm rr hrr
    exact Or.inr ⟨p.1, List.mem_range.mpr (hmem p hp).1, p.2,
      pair_lookup_of_mem hndf hp, hpe⟩
  obtain ⟨hacount, hamt⟩ := alignFold_right_spec st4.pairs st4.rightMatched hndr
    (fun p hp => (hmem p hp).2.2.2) (List.range left.length)
    (List.nodup_range _) [] []
    (fun r => by simp) (fun li hli v hv => by simp) hinit3
  have hfilnd : ((List.range right.length).filter
      (fun ri => decide (ri ∉ assembled.1 ∧ ri ∉ st4.rightMatched))).Nodup :=
    (List.nodup_range _).filter _
  constructor
  · intro l hl
    rw [hout, List.countP_append]
    have h1 : assembled.2.countP (leftRecOf l) = 1 := by
      rw [hasm, alignFold_left_count st4.pairs st4.rightMatched l
        (List.range left.length) ([], [])]
      simp only [List.countP_nil, Nat.zero_add]
      rw [countP_beq_of_nodup (List.nodup_range _)]
      simp [List.mem_range, hl]
    have h2 : trailing.countP (leftRecOf l) = 0 := by
      rw [htr, List.countP_map]
      apply List.countP_eq_zero.mpr
      intro x _
      simp [Function.comp, leftRecOf]
    rw [h1, h2]
  · intro r hr
    rw [hout, List.countP_append]
    have h2 : trailing.countP (rightRecOf r) =
        ((List.range right.length).filter
          (fun ri => decide (ri ∉ assembled.1 ∧ ri ∉ st4.rightMatched))).countP
          (fun x => x == r) := by
      rw [htr, List.countP_map]
      apply List.countP_congr
      intro x _
      simp [Function.comp, rightRecOf]
    by_cases hra : r ∈ assembled.1
    · have h1 : assembled.2.countP (rightRecOf r) = 1 := by
        rw [hasm]
        rw [hacount r]
        rw [hasm] at hra
        simp [hra]
      have h3 : trailing.countP (rightRecOf r) = 0 := by
        have hnf : r ∉ (List.range right.length).filter
            (fun ri => decide (ri ∉ assembled.1 ∧ ri ∉ st4.rightMatched)) := by
          intro hmemf
          have hp2 := (List.mem_filter.mp hmemf).2
          simp only [decide_eq_true_eq] at hp2
          exact hp2.1 hra
        rw [h2, countP_beq_of_nodup hfilnd, if_neg hnf]
      rw [h1, h3]
    · have hrnm : r ∉ st4.rightMatched := fun h => hra (by
        have := hamt r h
        rw [hasm]
        exact this)
      have h1 : assembled.2.countP (rightRecOf r) = 0 := by
        rw [hasm, hacount r]
        rw [hasm] at hra
        simp [hra]
      have h3 : trailing.countP (rightRecOf r) = 1 := by
        have hmemf : r ∈ (List.range right.length).filter
            (fun ri => decide (ri ∉ assembled.1 ∧ ri ∉ st4.rightMatched)) := by
          apply List.mem_filter.mpr
          refine ⟨List.mem_range.mpr hr, ?_⟩
          simp only [decide_eq_true_eq]
          exact ⟨hra, hrnm⟩
        rw [h2, countP_beq_of_nodup hfilnd, if_pos hmemf]
      rw [h1, h3]

theorem pass1_pairs_spec (L R : List Block) :
    ∀ p ∈ (pass1 L R).pairs, p.2.2.2 = false ∧
      (L.getD p.1 defaultBlock).structural_path =
        (R.getD p.2.1 defaultBlock).structural_path := by
  suffices h : ∀ (es : List (Nat × Block)),
      (∀ e ∈ es, L.getD e.1 defaultBlock = e.2) →
      ∀ (st : AlignState),
      (∀ p ∈ st.pairs, p.2.2.2 = false ∧
        (L.getD p.1 defaultBlock).structural_path =
          (R.getD p.2.1 defaultBlock).structural_path) →
      ∀ p ∈ (es.foldl (pass1Step R) st).pairs, p.2.2.2 = false ∧
        (L.getD p.1 defaultBlock).structural_path =
          (R.getD p.2.1 defaultBlock).structural_path by
    exact h L.enum (fun e he => (mem_enum_spec he).2) _ (by intro p hp; simp at hp)
  intro es
  induction es with
  | nil => intro _ st h; exact h
  | cons e rest ih =>
    intro hes st h
    simp only [List.foldl_cons]
    apply ih (fun e' he' => hes e' (List.mem_cons_of_mem _ he'))
    unfold pass1Step
    rcases hlk : right_by_key (fun b => b.structural_path) R (fun _ => true)
        e.2.structural_path with _ | ri
    · exact h
    · by_cases hrm : ri ∈ st.rightMatched
      · have hst : (match some ri with
            | some ri => if ri ∈ st.rightMatched then st
              else addPair st e.1 ri
                (block_similarity e.2 (R.getD ri defaultBlock)) false
            | none => st) = st := if_pos hrm
        rw [hst]; exact h
      · have hst : (match some ri with
            | some ri => if ri ∈ st.rightMatched then st
              else addPair st e.1 ri
                (block_similarity e.2 (R.getD ri defaultBlock)) false
            | none => st) = addPair st e.1 ri
              (block_similarity e.2 (R.getD ri defaultBlock)) false :=
          if_neg hrm
        rw [hst]
        intro p hp
        unfold addPair at hp
        simp only [] at hp
        rcases List.mem_append.mp hp with hin | hnew
        · exact h p hin
        · have hpe : p = (e.1, ri, block_similarity e.2 (R.getD ri defaultBlock),
              false) := List.mem_singleton.mp hnew
          subst hpe
          refine ⟨rfl, ?_⟩
          have hkey := (right_by_key_spec _ R _ _ ri hlk).2.2
          rw [hes e (List.mem_cons_self _ _)]
          exact hkey.symm

theorem pass2_pairs_spec (L R : List Block) (st0 : AlignState) :
    ∃ t, (pass2 L R st0).pairs = st0.pairs ++ t ∧
      ∀ p ∈ t, p.2.2.2 =
        decide ((L.getD p.1 defaultBlock).structural_path ≠
          (R.getD p.2.1 defaultBlock).structural_path) := by
  suffices h : ∀ (es : List (Nat × Block)),
      (∀ e ∈ es, L.getD e.1 defaultBlock = e.2) →
      ∀ (st : AlignState),
      (∃ t, st.pairs = st0.pairs ++ t ∧ ∀ p ∈ t, p.2.2.2 =
        decide ((L.getD p.1 defaultBlock).structural_path ≠
          (R.getD p.2.1 defaultBlock).structural_path)) →
      ∃ t, (es.foldl (pass2Step R st0) st).pairs = st0.pairs ++ t ∧
        ∀ p ∈ t, p.2.2.2 =
          decide ((L.getD p.1 defaultBlock).structural_path ≠
            (R.getD p.2.1 defaultBlock).structural_path) by
    exact h L.enum (fun e he => (mem_enum_spec he).2) st0
      ⟨[], by simp, by intro p hp; simp at hp⟩
  intro es
  induction es with
  | nil => intro _ st h; exact h
  | cons e rest ih =>
    intro hes st h
    simp only [List.foldl_cons]
    apply ih (fun e' he' => hes e' (List.mem_cons_of_mem _ he'))
    unfold pass2Step
    by_cases hlm : e.1 ∈ st.leftMatched
    · rw [if_pos hlm]; exact h
    · rw [if_neg hlm]
      rcases hlk : right_by_key (fun b => b.anchor_signature) R
          (fun i => decide (i ∉ st0.rightMatched)) e.2.anchor_signature
        with _ | ri
      · exact h
      · by_cases hrm : ri ∈ st.rightMatched
        · have hst : (match some ri with
              | some ri => if ri ∈ st.rightMatched then st
                else
                  let rb := R.getD ri defaultBlock
                  let is_move := decide (e.2.structural_path ≠ rb.structural_path)
                  addPair st e.1 ri (block_similarity e.2 rb) is_move
              | none => st) = st := if_pos hrm
          rw [hst]; exact h
        · have hst : (match some ri with
              | some ri => if ri ∈ st.rightMatched then st
                else
                  let rb := R.getD ri defaultBlock
                  let is_move := decide (e.2.structural_path ≠ rb.structural_path)
                  addPair st e.1 ri (block_similarity e.2 rb) is_move
              | none => st) = addPair st e.1 ri
                (block_similarity e.2 (R.getD ri defaultBlock))
                (decide (e.2.structural_path ≠
                  (R.getD ri defaultBlock).structural_path)) := if_neg hrm
          rw [hst]
          obtain ⟨t, hpt, hq⟩ := h
          refine ⟨t ++ [(e.1, ri, block_similarity e.2 (R.getD ri defaultBlock),
            decide (e.2.structural_path ≠
              (R.getD ri defaultBlock).structural_path))], ?_, ?_⟩
          · unfold addPair
            simp only []
            rw [hpt, List.append_assoc]
          · intro p hp
            rcases List.mem_append.mp hp with hin | hnew
            · exact hq p hin
            · have hpe := List.mem_singleton.mp hnew
              subst hpe
              simp only []
              rw [hes e (List.mem_cons_self _ _)]

theorem pass3_pairs_spec (L R : List Block) (st0 : AlignState) :
    ∃ t, (pass3 L R st0).pairs = st0.pairs ++ t ∧
      ∀ p ∈ t, p.2.2.2 =
        (decide ((L.getD p.1 defaultBlock).structural_path ≠
          (R.getD p.2.1 defaultBlock).structural_path)
         && decide (p.2.2.1 ≥ MOVE_THRESHOLD)) := by
  suffices h : ∀ (cs : List (Nat × Nat × Rat))
      (acc : AlignState × List Nat × List Nat),
      (∃ t, acc.1.pairs = st0.pairs ++ t ∧ ∀ p ∈ t, p.2.2.2 =
        (decide ((L.getD p.1 defaultBlock).structural_path ≠
          (R.getD p.2.1 defaultBlock).structural_path)
         && decide (p.2.2.1 ≥ MOVE_THRESHOLD))) →
      ∃ t, ((cs.foldl (pass3Step L R) acc).1.pairs = st0.pairs ++ t ∧
        ∀ p ∈ t, p.2.2.2 =
          (decide ((L.getD p.1 defaultBlock).structural_path ≠
            (R.getD p.2.1 defaultBlock).structural_path)
           && decide (p.2.2.1 ≥ MOVE_THRESHOLD))) by
    exact h (sortCandidates (pass3Candidates L R st0)) (st0, [], [])
      ⟨[], by simp, by intro p hp; simp at hp⟩
  intro cs
  induction cs with
  | nil => intro acc h; exact h
  | cons c rest ih =>
    intro acc h
    simp only [List.foldl_cons]
    apply ih
    unfold pass3Step
    by_cases hused : c.1 ∈ acc.2.1 ∨ c.2.1 ∈ acc.2.2
    · rw [if_pos hused]; exact h
    · rw [if_neg hused]
      obtain ⟨t, hpt, hq⟩ := h
      refine ⟨t ++ [(c.1, c.2.1, c.2.2,
        decide ((L.getD c.1 defaultBlock).structural_path ≠
          (R.getD c.2.1 defaultBlock).structural_path)
        && decide (c.2.2 ≥ MOVE_THRESHOLD))], ?_, ?_⟩
      · show (addPair acc.1 c.1 c.2.1 c.2.2 _).pairs = _
        unfold addPair
        simp only []
        rw [hpt, List.append_assoc]
      · intro p hp
        rcases List.mem_append.mp hp with hin | hnew
        · exact hq p hin
        · have hpe := List.mem_singleton.mp hnew
          subst hpe
          rfl

theorem pass4_pairs_spec (L R : List Block) (st0 : AlignState) :
    ∃ t, (pass4 L R st0).pairs = st0.pairs ++ t ∧
      ∀ p ∈ t, p.2.2.2 =
        (decide ((L.getD p.1 defaultBlock).structural_path ≠
          (R.getD p.2.1 defaultBlock).structural_path)
         && decide (p.2.2.1 ≥ MOVE_THRESHOLD)) := by
  suffices h : ∀ (ps : List (Nat × Nat)) (st : AlignState),
      (∃ t, st.pairs = st0.pairs ++ t ∧ ∀ p ∈ t, p.2.2.2 =
        (decide ((L.getD p.1 defaultBlock).structural_path ≠
          (R.getD p.2.1 defaultBlock).structural_path)
         && decide (p.2.2.1 ≥ MOVE_THRESHOLD))) →
      ∃ t, ((ps.foldl (pass4Step L R) st).pairs = st0.pairs ++ t ∧
        ∀ p ∈ t, p.2.2.2 =
          (decide ((L.getD p.1 defaultBlock).structural_path ≠
            (R.getD p.2.1 defaultBlock).structural_path)
           && decide (p.2.2.1 ≥ MOVE_THRESHOLD))) by
    exact h (pass4LcsPairs L R st0) st0
      ⟨[], by simp, by intro p hp; simp at hp⟩
  intro ps
  induction ps with
  | nil => intro st h; exact h
  | cons q rest ih =>
    intro st h
    simp only [List.foldl_cons]
    apply ih
    unfold pass4Step
    by_cases hsim : block_similarity (L.getD q.1 defaultBlock)
        (R.getD q.2 defaultBlock) ≥ SIMILARITY_THRESHOLD
    · rw [if_pos hsim]
      obtain ⟨t, hpt, hq⟩ := h
      refine ⟨t ++ [(q.1, q.2,
        block_similarity (L.getD q.1 defaultBlock) (R.getD q.2 defaultBlock),
        decide ((L.getD q.1 defaultBlock).structural_path ≠
          (R.getD q.2 defaultBlock).structural_path)
        && decide (block_similarity (L.getD q.1 defaultBlock)
            (R.getD q.2 defaultBlock) ≥ MOVE_THRESHOLD))], ?_, ?_⟩
      · show (addPair st q.1 q.2 _ _).pairs = _
        unfold addPair
        simp only []
        rw [hpt, List.append_assoc]
      · intro p hp
        rcases List.mem_append.mp hp with hin | hnew
        · exact hq p hin
        · have hpe := List.mem_singleton.mp hnew
          subst hpe
          rfl
    · rw [if_neg hsim]; exact h

theorem pass2NewPairs_spec (L R : List Block) :
    ∀ p ∈ pass2NewPairs L R, p.2.2.2 =
      decide ((L.getD p.1 defaultBlock).structural_path ≠
        (R.getD p.2.1 defaultBlock).structural_path) := by
  obtain ⟨t, hpt, hq⟩ := pass2_pairs_spec L R (pass1 L R)
  intro p hp
  unfold pass2NewPairs at hp
  rw [hpt, List.drop_left] at hp
  exact hq p hp

theorem pass3NewPairs_spec (L R : List Block) :
    ∀ p ∈ pass3NewPairs L R, p.2.2.2 =
      (decide ((L.getD p.1 defaultBlock).structural_path ≠
        (R.getD p.2.1 defaultBlock).structural_path)
       && decide (p.2.2.1 ≥ MOVE_THRESHOLD)) := by
  obtain ⟨t, hpt, hq⟩ := pass3_pairs_spec L R (pass2 L R (pass1 L R))
  intro p hp
  unfold pass3NewPairs at hp
  rw [hpt, List.drop_left] at hp
  exact hq p hp

theorem pass4NewPairs_spec (L R : List Block) :
    ∀ p ∈ pass4NewPairs L R, p.2.2.2 =
      (decide ((L.getD p.1 defaultBlock).structural_path ≠
        (R.getD p.2.1 defaultBlock).structural_path)
       && decide (p.2.2.1 ≥ MOVE_THRESHOLD)) := by
  obtain ⟨t, hpt, hq⟩ := pass4_pairs_spec L R
    (pass3 L R (pass2 L R (pass1 L R)))
  intro p hp
  unfold pass4NewPairs at hp
  rw [hpt, List.drop_left] at hp
  exact hq p hp

theorem st4_pairs_flag (L R : List Block) :
    ∀ p ∈ (pass4 L R (pass3 L R (pass2 L R (pass1 L R)))).pairs,
      (p.2.2.2 = true →
        (L.getD p.1 defaultBlock).structural_path ≠
          (R.getD p.2.1 defaultBlock).structural_path) ∧
      (p.2.2.2 = false →
        (L.getD p.1 defaultBlock).structural_path =
          (R.getD p.2.1 defaultBlock).structural_path ∨
        p.2.2.1 < MOVE_THRESHOLD) := by
  obtain ⟨t4, hpt4, hq4⟩ := pass4_pairs_spec L R
    (pass3 L R (pass2 L R (pass1 L R)))
  obtain ⟨t3, hpt3, hq3⟩ := pass3_pairs_spec L R (pass2 L R (pass1 L R))
  obtain ⟨t2, hpt2, hq2⟩ := pass2_pairs_spec L R (pass1 L R)
  intro p hp
  rw [hpt4, hpt3, hpt2] at hp
  have hand : ∀ (q : Nat × Nat × Rat × Bool), q.2.2.2 =
      (decide ((L.getD q.1 defaultBlock).structural_path ≠
        (R.getD q.2.1 defaultBlock).structural_path)
       && decide (q.2.2.1 ≥ MOVE_THRESHOLD)) →
      (q.2.2.2 = true →
        (L.getD q.1 defaultBlock).structural_path ≠
          (R.getD q.2.1 defaultBlock).structural_path) ∧
      (q.2.2.2 = false →
        (L.getD q.1 defaultBlock).structural_path =
          (R.getD q.2.1 defaultBlock).structural_path ∨
        q.2.2.1 < MOVE_THRESHOLD) := by
    intro q hflag
    constructor
    · intro htrue
      rw [htrue] at hflag
      have := (Bool.and_eq_true _ _).mp hflag.symm
      exact of_decide_eq_true this.1
    · intro hfalse
      rw [hfalse] at hflag
      rcases Bool.and_eq_false_iff.mp hflag.symm with h1 | h2
      · left
        have := of_decide_eq_false h1
        exact not_not.mp this
      · right
        exact lt_of_not_le (of_decide_eq_false h2)
  rcases List.mem_append.mp hp with hp123 | hp4
  · rcases List.mem_append.mp hp123 with hp12 | hp3
    · rcases List.mem_append.mp hp12 with hp1 | hp2
      · obtain ⟨hflag, hpath⟩ := pass1_pairs_spec L R p hp1
        refine ⟨fun htrue => absurd (hflag ▸ htrue) (by simp), fun _ => Or.inl hpath⟩
      · have hflag := hq2 p hp2
        constructor
        · intro htrue
          rw [htrue] at hflag
          exact of_decide_eq_true hflag.symm
        · intro hfalse
          rw [hfalse] at hflag
          exact Or.inl (not_not.mp (of_decide_eq_false hflag.symm))
    · exact hand p (hq3 p hp3)
  · exact hand p (hq4 p hp4)

theorem emitIns_out_mem (before_ri : Nat) (emitted matchedR : List Nat) :
    ∀ a ∈ (emit_insertions_before before_ri emitted matchedR).2,
      ∃ r, a = BlockAlignment.insertedRight r := by
  unfold emit_insertions_before
  suffices h : ∀ (ris : List Nat) (acc : List Nat × List BlockAlignment),
      (∀ a ∈ acc.2, ∃ r, a = BlockAlignment.insertedRight r) →
      ∀ a ∈ (ris.foldl (fun acc ri =>
          if ri ∉ acc.1 ∧ ri ∉ matchedR then
            (acc.1 ++ [ri], acc.2 ++ [BlockAlignment.insertedRight ri])
          else acc) acc).2, ∃ r, a = BlockAlignment.insertedRight r by
    exact h (List.range before_ri) (emitted, [])
      (by intro a ha; simp at ha)
  intro ris
  induction ris with
  | nil => intro acc h; exact h
  | cons ri rest ih =>
    intro acc h
    simp only [List.foldl_cons]
    apply ih
    by_cases hc : ri ∉ acc.1 ∧ ri ∉ matchedR
    · rw [if_pos hc]
      intro a ha
      rcases List.mem_append.mp ha with hin | hnew
      · exact h a hin
      · exact ⟨ri, List.mem_singleton.mp hnew⟩
    · rw [if_neg hc]; exact h

theorem alignFold_out_mem (pairs : List (Nat × Nat × Rat × Bool))
    (matchedR : List Nat) :
    ∀ (lis : List Nat) (acc : List Nat × List BlockAlignment),
      ∀ a ∈ (lis.foldl (alignEmitStep pairs matchedR) acc).2,
        a ∈ acc.2 ∨
        (∃ li v, pair_lookup pairs li = some v ∧
          a = (if v.2.2 then BlockAlignment.moved li v.1 v.2.1
               else BlockAlignment.matched li v.1 v.2.1)) ∨
        (∃ r, a = BlockAlignment.insertedRight r) ∨
        (∃ l, a = BlockAlignment.deletedLeft l) := by
  intro lis
  induction lis with
  | nil => intro acc a ha; exact Or.inl ha
  | cons li rest ih =>
    intro acc a ha
    simp only [List.foldl_cons] at ha
    rcases ih (alignEmitStep pairs matchedR acc li) a ha with hacc | hrest
    · unfold alignEmitStep at hacc
      rcases hlk : pair_lookup pairs li with _ | v
      · rw [hlk] at hacc
        simp only [] at hacc
        rcases List.mem_append.mp hacc with hin | hnew
        · exact Or.inl hin
        · exact Or.inr (Or.inr (Or.inr ⟨li, List.mem_singleton.mp hnew⟩))
      · rw [hlk] at hacc
        simp only [] at hacc
        rcases List.mem_append.mp hacc with hin2 | hnew
        · rcases List.mem_append.mp hin2 with hin | hins
          · exact Or.inl hin
          · exact Or.inr (Or.inr (Or.inl
              (emitIns_out_mem v.1 acc.1 matchedR a hins)))
        · exact Or.inr (Or.inl ⟨li, v, hlk, List.mem_singleton.mp hnew⟩)
    · exact Or.inr hrest

theorem align_out_classify (L R : List Block) :
    (∀ l r s, BlockAlignment.moved l r s ∈ align_blocks L R →
      (L.getD l defaultBlock).structural_path ≠
        (R.getD r defaultBlock).structural_path) ∧
    (∀ l r s, BlockAlignment.matched l r s ∈ align_blocks L R →
      (L.getD l defaultBlock).structural_path =
        (R.getD r defaultBlock).structural_path ∨ s < MOVE_THRESHOLD) := by
  have hmm : ∀ (a : BlockAlignment), a ∈ align_blocks L R →
      (∀ r', a ≠ BlockAlignment.insertedRight r') →
      (∀ l', a ≠ BlockAlignment.deletedLeft l') →
      ∃ li v, pair_lookup
        (pass4 L R (pass3 L R (pass2 L R (pass1 L R)))).pairs li = some v ∧
        a = (if v.2.2 then BlockAlignment.moved li v.1 v.2.1
             else BlockAlignment.matched li v.1 v.2.1) := by
    intro a ha hnir hndl
    have hsplit : a ∈ ((List.range L.length).foldl
        (alignEmitStep (pass4 L R (pass3 L R (pass2 L R (pass1 L R)))).pairs
          (pass4 L R (pass3 L R (pass2 L R (pass1 L R)))).rightMatched)
        ([], [])).2 ∨
        ∃ r', a = BlockAlignment.insertedRight r' := by
      rcases List.mem_append.mp ha with h1 | h2
      · exact Or.inl h1
      · obtain ⟨ri, _, hri⟩ := List.mem_map.mp h2
        exact Or.inr ⟨ri, hri.symm⟩
    rcases hsplit with hasm | ⟨r', hr'⟩
    · rcases alignFold_out_mem _ _ (List.range L.length) ([], []) a hasm with
        hin | hpair | ⟨r', hr'⟩ | ⟨l', hl'⟩
      · simp at hin
      · exact hpair
      · exact absurd hr' (hnir r')
      · exact absurd hl' (hndl l')
    · exact absurd hr' (hnir r')
  constructor
  · intro l r s ha
    obtain ⟨li, v, hlk, hae⟩ := hmm (BlockAlignment.moved l r s) ha
      (fun r' h => BlockAlignment.noConfusion h)
      (fun l' h => BlockAlignment.noConfusion h)
    have hpmem := pair_lookup_mem hlk
    by_cases hmv : v.2.2 = true
    · rw [if_pos hmv] at hae
      obtain ⟨hl, hr, hs⟩ : l = li ∧ r = v.1 ∧ s = v.2.1 := by
        injection hae with h1 h2 h3
        exact ⟨h1, h2, h3⟩
      subst hl; subst hr; subst hs
      exact (st4_pairs_flag L R (l, v) hpmem).1 hmv
    · rw [if_neg hmv] at hae
      exact BlockAlignment.noConfusion hae
  · intro l r s ha
    obtain ⟨li, v, hlk, hae⟩ := hmm (BlockAlignment.matched l r s) ha
      (fun r' h => BlockAlignment.noConfusion h)
      (fun l' h => BlockAlignment.noConfusion h)
    have hpmem := pair_lookup_mem hlk
    by_cases hmv : v.2.2 = true
    · rw [if_pos hmv] at hae
      exact BlockAlignment.noConfusion hae
    · rw [if_neg hmv] at hae
      obtain ⟨hl, hr, hs⟩ : l = li ∧ r = v.1 ∧ s = v.2.1 := by
        injection hae with h1 h2 h3
        exact ⟨h1, h2, h3⟩
      subst hl; subst hr; subst hs
      exact (st4_pairs_flag L R (l, v) hpmem).2 (Bool.not_eq_true _ ▸ hmv)


theorem cex_token_sets : token_set cexLeftBlock = ["a", "b", "c", "d"] ∧
    token_set cexRightBlock = ["a", "x", "y", "z"] := by
  constructor <;> decide

theorem cex_sim : block_similarity cexLeftBlock cexRightBlock = 1 / 7 := by
  obtain ⟨htl, htr⟩ := cex_token_sets
  unfold block_similarity
  rw [htl, htr]
  simp only []
  have hint : ((["a", "b", "c", "d"].dedup.map
      (fun t => min (List.count t ["a", "b", "c", "d"])
        (List.count t ["a", "x", "y", "z"]))).sum) = 1 := by decide
  rw [hint]
  norm_num

/-- **C3** (counterexample): two single-block lists sharing the anchor
signature but with different structural paths and Jaccard similarity
`1/7 < 0.85`.  The pass-2 anchor match still labels the pair `Moved`, so
the claimed `sim ≥ 0.85` condition does not hold for pass-2 pairs. -/
theorem align_pass2_moved_counterexample :
    align_blocks [cexLeftBlock] [cexRightBlock] =
      [BlockAlignment.moved 0 0 (block_similarity cexLeftBlock cexRightBlock)] ∧
    block_similarity cexLeftBlock cexRightBlock < MOVE_THRESHOLD ∧
    cexLeftBlock.structural_path ≠ cexRightBlock.structural_path := by
  refine ⟨rfl, ?_, by decide⟩
  rw [cex_sim]
  rw [show MOVE_THRESHOLD = 17 / 20 from rfl]
  norm_num

/-- **C3** (amended): a pass-2 (anchor) pair is flagged `Moved` exactly when
the structural paths differ, with no similarity condition; pass-3 and
pass-4 pairs are flagged `Moved` exactly when the paths differ AND
`sim ≥ 0.85`; consequently every `Moved` record in the output has
differing paths, and every `Matched` record has equal paths or
`sim < 0.85`. -/
theorem align_moved_classification (L R : List Block) :
    (∀ p ∈ pass2NewPairs L R, p.2.2.2 =
      decide ((L.getD p.1 defaultBlock).structural_path ≠
        (R.getD p.2.1 defaultBlock).structural_path)) ∧
    (∀ p ∈ pass3NewPairs L R, p.2.2.2 =
      (decide ((L.getD p.1 defaultBlock).structural_path ≠
        (R.getD p.2.1 defaultBlock).structural_path)
       && decide (p.2.2.1 ≥ MOVE_THRESHOLD))) ∧
    (∀ p ∈ pass4NewPairs L R, p.2.2.2 =
      (decide ((L.getD p.1 defaultBlock).structural_path ≠
        (R.getD p.2.1 defaultBlock).structural_path)
       && decide (p.2.2.1 ≥ MOVE_THRESHOLD))) ∧
    (∀ l r s, BlockAlignment.moved l r s ∈ align_blocks L R →
      (L.getD l defaultBlock).structural_path ≠
        (R.getD r defaultBlock).structural_path) ∧
    (∀ l r s, BlockAlignment.matched l r s ∈ align_blocks L R →
      (L.getD l defaultBlock).structural_path =
        (R.getD r defaultBlock).structural_path ∨ s < MOVE_THRESHOLD) :=
  ⟨pass2NewPairs_spec L R, pass3NewPairs_spec L R, pass4NewPairs_spec L R,
   (align_out_classify L R).1, (align_out_classify L R).2⟩

theorem align_moved_classification_witness :
    ([cexLeftBlock].getD 0 defaultBlock).structural_path ≠
      ([cexRightBlock].getD 0 defaultBlock).structural_path :=
  (align_moved_classification [cexLeftBlock] [cexRightBlock]).2.2.2.1 0 0
    (block_similarity cexLeftBlock cexRightBlock)
    (by rw [show align_blocks [cexLeftBlock] [cexRightBlock] =
        [BlockAlignment.moved 0 0
          (block_similarity cexLeftBlock cexRightBlock)] from rfl]
        exact List.mem_singleton.mpr rfl)

theorem align_blocks_exhaustive_witness :
    ((align_blocks [cexLeftBlock] [cexRightBlock]).countP (leftRecOf 0)) = 1 ∧
    ((align_blocks [cexLeftBlock] [cexRightBlock]).countP (rightRecOf 0)) = 1 :=
  ⟨(align_blocks_exhaustive [cexLeftBlock] [cexRightBlock]).1 0 (by decide),
   (align_blocks_exhaustive [cexLeftBlock] [cexRightBlock]).2 0 (by decide)⟩

/-- **C4** (code bug): `MergeEngine::merge` never synthesizes tokens — it
passes `block.tokens` to `token_diff` as-is (`ensure_tokens` exists only
in the compare worker).  For matched blocks with differing clause hashes
and empty token streams the diff is empty, so the pair is auto-resolved
with no conflicts, while the same blocks with tokens populated from their
canonical text produce a conflict: the merge result is NOT independent of
whether the caller pre-populated the tokens. -/
theorem merge_no_token_synthesis :
    c4BaseBlockEmpty.tokens = [] ∧ c4IncBlockEmpty.tokens = [] ∧
    c4BaseBlockEmpty.clause_hash ≠ c4IncBlockEmpty.clause_hash ∧
    c4BaseBlockTok.tokens = tokenize c4BaseBlockEmpty.canonical_text ∧
    c4IncBlockTok.tokens = tokenize c4IncBlockEmpty.canonical_text ∧
    (merge 0 0 [c4BaseBlockEmpty] [c4IncBlockEmpty] "base"
      "incoming").conflicts = [] ∧
    (merge 0 0 [c4BaseBlockEmpty] [c4IncBlockEmpty] "base"
      "incoming").auto_resolved = 1 ∧
    (merge 0 0 [c4BaseBlockTok] [c4IncBlockTok] "base" "incoming").conflicts =
      [MergeConflict.new 1 ConflictType.deleteModify none (some "c")] ∧
    (merge 0 0 [c4BaseBlockTok] [c4IncBlockTok] "base"
      "incoming").auto_resolved = 0 := by
  refine ⟨by decide, by decide, by decide, by decide, by decide, by decide,
    by decide, by decide, by decide⟩

theorem conflict_for_pair_pending (b i : BlockDelta) (c : MergeConflict)
    (h : conflict_for_pair b i = some c) :
    c.resolution = ConflictResolution.pending := by
  unfold conflict_for_pair at h
  split at h
  · exact absurd h (by simp)
  · split at h
    · cases h; rfl
    · split at h
      · cases h; rfl
      · split at h
        · cases h; rfl
        · exact absurd h (by simp)

theorem detect_conflicts_pending (bs is : List BlockDelta) :
    ∀ c ∈ detect_conflicts bs is,
      c.resolution = ConflictResolution.pending := by
  intro c hc
  unfold detect_conflicts at hc
  obtain ⟨b, _, hcf⟩ := List.mem_flatMap.mp hc
  obtain ⟨i, _, hp⟩ := List.mem_filterMap.mp hcf
  exact conflict_for_pair_pending b i c hp

theorem mergeFold_pending (bb ib : List Block) (br ir : String) :
    ∀ (aligns : List BlockAlignment) (acc : List MergeConflict × Nat),
      (∀ c ∈ acc.1, c.resolution = ConflictResolution.pending) →
      ∀ c ∈ (aligns.foldl (mergeStep bb ib br ir) acc).1,
        c.resolution = ConflictResolution.pending := by
  intro aligns
  induction aligns with
  | nil => intro acc h; exact h
  | cons a rest ih =>
    intro acc h
    simp only [List.foldl_cons]
    apply ih
    intro c hc
    match a with
    | BlockAlignment.insertedRight r => exact h c hc
    | BlockAlignment.deletedLeft l => exact h c hc
    | BlockAlignment.matched l r s =>
      simp only [mergeStep] at hc
      split at hc
      · exact h c hc
      · split at hc
        · exact h c hc
        · rcases List.mem_append.mp hc with hold | hnew
          · exact h c hold
          · exact detect_conflicts_pending _ _ c hnew
    | BlockAlignment.moved l r s =>
      simp only [mergeStep] at hc
      split at hc
      · exact h c hc
      · split at hc
        · exact h c hc
        · rcases List.mem_append.mp hc with hold | hnew
          · exact h c hold
          · exact detect_conflicts_pending _ _ c hnew

/-- **C10**: every conflict in a `MergeEngine::merge` result is `Pending`
(`MergeConflict::new` always initialises `Pending` and `merge` never
resolves), so `pending_review` equals the number of conflicts. -/
theorem merge_pending_review_eq_conflicts (base_doc_id incoming_doc_id : Nat)
    (base_blocks incoming_blocks : List Block)
    (base_reviewer incoming_reviewer : String) :
    (∀ c ∈ (merge base_doc_id incoming_doc_id base_blocks incoming_blocks
        base_reviewer incoming_reviewer).conflicts,
      c.resolution = ConflictResolution.pending) ∧
    (merge base_doc_id incoming_doc_id base_blocks incoming_blocks
      base_reviewer incoming_reviewer).pending_review =
    (merge base_doc_id incoming_doc_id base_blocks incoming_blocks
      base_reviewer incoming_reviewer).conflicts.length := by
  have hall : ∀ c ∈ (merge base_doc_id incoming_doc_id base_blocks
      incoming_blocks base_reviewer incoming_reviewer).conflicts,
      c.resolution = ConflictResolution.pending := by
    intro c hc
    exact mergeFold_pending base_blocks incoming_blocks base_reviewer
      incoming_reviewer (align_blocks base_blocks incoming_blocks) ([], 0)
      (by intro c hc; simp at hc) c hc
  refine ⟨hall, ?_⟩
  show ((merge base_doc_id incoming_doc_id base_blocks incoming_blocks
      base_reviewer incoming_reviewer).conflicts.filter
      (fun c => decide (c.resolution = ConflictResolution.pending))).length = _
  rw [List.filter_eq_self.mpr]
  intro c hc
  exact decide_eq_true (hall c hc)

theorem merge_pending_review_eq_conflicts_witness :
    (merge 0 0 [c4BaseBlockTok] [c4IncBlockTok] "base"
      "incoming").pending_review =
    (merge 0 0 [c4BaseBlockTok] [c4IncBlockTok] "base"
      "incoming").conflicts.length :=
  (merge_pending_review_eq_conflicts 0 0 [c4BaseBlockTok] [c4IncBlockTok]
    "base" "incoming").2
